import Mathlib

/-
Verification of the worker pool of the go-toc repository
(src/internal/worker/pool.go).

The Go code is shallowly embedded as follows:

- `Job`, `Result` mirror the structs of pool.go.  The opaque `Data any`
  payload is modelled as a `Nat`; `Error error` is modelled as
  `Option String` (`none` = nil error).
- `ResultMap` models the Go `map[string]Result` as an association list
  with insert-overwrite semantics; every runner of pool.go builds its map
  with `results[result.FilePath] = result`, which is `mapInsert`.
- `ProcessSequentialWithContext` is a direct transcription of the Go loop;
  the context is modelled as a monotone stream of Done-observations
  `done : Nat -> Bool` giving the outcome of the select-with-default check
  performed at iteration i.  `ProcessSequential` passes the never-done
  stream (context.Background is never Done).
- `ProcessAll` and `ProcessAllWithContext` are concurrent; they are
  embedded as explicit small-step machines (`PoolExec` / `CtxExec`) whose
  transitions mirror, case by case, the goroutine bodies of pool.go, and
  which are driven by an explicit schedule of actions.  Workers are
  symmetric, so worker occupancy is represented by counts plus the lists
  of jobs currently held in each phase; a schedule action selects the job
  value to advance, which is equivalent to selecting a worker id.
- Pool lifecycle (`NewPool` / `Start` / `Submit` / `Close`) is embedded
  as the state machine `PoolLife` over sequences of public operations,
  tracking the sync.Once guard and the two channel-closed flags; a Go
  panic (send on closed channel, close of closed channel) is tracked by
  the `panicked` flag.
-/

namespace Worker

/-- Job mirrors the Go struct Job of pool.go; `data` stands for the
opaque `Data any` payload. -/
structure Job where
  filePath : String
  data : Nat
deriving DecidableEq

/-- Result mirrors the Go struct Result of pool.go; `error` is
`Option String` with `none` for a nil error. -/
structure Result where
  filePath : String
  summary : String
  error : Option String
deriving DecidableEq

/-- ProcessFunc mirrors the Go type `func(job Job) Result`. -/
abbrev ProcessFunc := Job → Result

/-- a Go `map[string]Result` as an association list. -/
abbrev ResultMap := List (String × Result)

/-- assignment `m[k] = v` of a Go map: overwrite the entry if the key is
present, append a fresh entry otherwise. -/
def mapInsert : ResultMap → String → Result → ResultMap
  | [], k, v => [(k, v)]
  | (k', v') :: rest, k, v =>
    if k' = k then (k', v) :: rest else (k', v') :: mapInsert rest k v

/-- lookup in the association-list map. -/
def mapFind : ResultMap → String → Option Result
  | [], _ => none
  | (k', v') :: rest, k => if k' = k then some v' else mapFind rest k

/-- the keys of the map, in insertion order of first occurrence. -/
def mapKeys (m : ResultMap) : List String := m.map Prod.fst

/-- fold a stream of results into a map exactly as every runner of
pool.go does: `results[result.FilePath] = result`, in stream order. -/
def resultsToMap (rs : List Result) : ResultMap :=
  rs.foldl (fun m r => mapInsert m r.filePath r) []

/-- loop body of ProcessSequentialWithContext (pool.go lines 126-140):
at each iteration the select observes the context (`done i`); if Done is
ready the partial map is returned, otherwise the job is processed and
keyed by the FilePath of the returned Result. -/
def processSeqGo (done : Nat → Bool) (processFunc : ProcessFunc) :
    List Job → Nat → ResultMap → ResultMap
  | [], _, results => results
  | job :: rest, i, results =>
    if done i then results
    else
      let result := processFunc job
      processSeqGo done processFunc rest (i + 1)
        (mapInsert results result.filePath result)

/-- ProcessSequentialWithContext of pool.go, with the context embedded as
the stream of Done-observations of the per-iteration check. -/
def ProcessSequentialWithContext (done : Nat → Bool) (jobs : List Job)
    (processFunc : ProcessFunc) : ResultMap :=
  processSeqGo done processFunc jobs 0 []

/-- ProcessSequential of pool.go: the background context is never Done. -/
def ProcessSequential (jobs : List Job) (processFunc : ProcessFunc) : ResultMap :=
  ProcessSequentialWithContext (fun _ => false) jobs processFunc

/-- sequential loop for an effectful processFunc `s -> Job -> s × Result`,
the honest embedding of calling an impure Go func sequentially; used to
state the side-effect-ordering guarantee of the sequential runner. -/
def processSeqStGo {σ : Type} (done : Nat → Bool)
    (processFunc : σ → Job → σ × Result) :
    List Job → Nat → σ → ResultMap → σ × ResultMap
  | [], _, st, results => (st, results)
  | job :: rest, i, st, results =>
    if done i then (st, results)
    else
      let p := processFunc st job
      processSeqStGo done processFunc rest (i + 1) p.1
        (mapInsert results p.2.filePath p.2)

/-- ProcessSequentialWithContext for an effectful processFunc. -/
def processSequentialSt {σ : Type} (done : Nat → Bool) (jobs : List Job)
    (processFunc : σ → Job → σ × Result) (init : σ) : σ × ResultMap :=
  processSeqStGo done processFunc jobs 0 init []

/-- fold a stream of results into an existing map; `resultsToMap` is the
instance starting from the empty map. -/
def insFold (m : ResultMap) (rs : List Result) : ResultMap :=
  rs.foldl (fun m r => mapInsert m r.filePath r) m

/-
Small-step machine for ProcessAll (pool.go lines 88-117), built on the
Pool worker loop (lines 57-64).  Goroutines:
- the submitter: submits every job in list order onto the jobs channel,
  then closes it (action submit, one job per step);
- each worker: repeatedly receives a job (action take), applies
  processFunc and pushes the Result (action finish), or terminates when
  the jobs channel is closed and empty (action exitW);
- the closer: waits until every worker has exited, then closes the
  results channel (action closeRes, enabled only when no worker is idle
  or busy, mirroring wg.Wait).
Workers are symmetric, so the state keeps the number of idle workers and
the list of jobs currently being processed; `finish j` advances the
worker processing (one occurrence of) j.  The jobs channel is a FIFO
`queue`; buffering bounds only affect blocking, never the collected map,
so capacities are not modelled.  The collector reads the results channel
until closed, hence collects exactly the pushed stream `pushed`; the
returned map is `resultsToMap pushed`.  Ghost field `donejobs` records
the jobs whose Result was pushed, in push order.
-/
/-- schedule actions driving the ProcessAll machine. -/
inductive PoolAct where
  | submit : PoolAct
  | take : PoolAct
  | finish : Job → PoolAct
  | exitW : PoolAct
  | closeRes : PoolAct
deriving DecidableEq

/-- state of the ProcessAll machine. -/
structure PoolExec where
  pending : List Job
  submitClosed : Bool
  queue : List Job
  idle : Nat
  busy : List Job
  exited : Nat
  pushed : List Result
  donejobs : List Job
  resultsClosed : Bool
deriving DecidableEq

/-- worker count after the NewPool clamp `if workers <= 0 then 1`. -/
def wtotal (workers : Nat) : Nat := if workers = 0 then 1 else workers

/-- initial state of ProcessAll: all jobs pending, all workers idle. -/
def initPool (jobs : List Job) (workers : Nat) : PoolExec :=
  { pending := jobs, submitClosed := false, queue := [],
    idle := wtotal workers, busy := [], exited := 0, pushed := [],
    donejobs := [], resultsClosed := false }

/-- one transition of the ProcessAll machine; an action whose guard does
not hold (the goroutine is blocked or absent) leaves the state unchanged. -/
def poolStep (processFunc : ProcessFunc) (s : PoolExec) : PoolAct → PoolExec
  | .submit =>
    if s.submitClosed then s
    else
      match s.pending with
      | [] => { s with submitClosed := true }
      | job :: rest => { s with pending := rest, queue := s.queue ++ [job] }
  | .take =>
    match s.queue with
    | [] => s
    | job :: rest =>
      if s.idle = 0 then s
      else { s with idle := s.idle - 1, queue := rest, busy := s.busy ++ [job] }
  | .finish job =>
    if job ∈ s.busy then
      { s with busy := s.busy.erase job,
               pushed := s.pushed ++ [processFunc job],
               donejobs := s.donejobs ++ [job],
               idle := s.idle + 1 }
    else s
  | .exitW =>
    if s.idle ≠ 0 ∧ s.queue = [] ∧ s.submitClosed = true then
      { s with idle := s.idle - 1, exited := s.exited + 1 }
    else s
  | .closeRes =>
    if s.idle = 0 ∧ s.busy = [] ∧ s.resultsClosed = false then
      { s with resultsClosed := true }
    else s

/-- run the ProcessAll machine on a schedule. -/
def poolRun (processFunc : ProcessFunc) (jobs : List Job) (workers : Nat)
    (acts : List PoolAct) : PoolExec :=
  acts.foldl (poolStep processFunc) (initPool jobs workers)

/-- the map returned by ProcessAll on the execution described by the
schedule: the collector folds the pushed results in channel order. -/
def ProcessAll (jobs : List Job) (workers : Nat) (processFunc : ProcessFunc)
    (acts : List PoolAct) : ResultMap :=
  resultsToMap (poolRun processFunc jobs workers acts).pushed

/-- invariants of the ProcessAll machine. -/
structure PoolInv (processFunc : ProcessFunc) (jobs : List Job)
    (workers : Nat) (s : PoolExec) : Prop where
  pushedEq : s.pushed = s.donejobs.map processFunc
  conserve : List.Perm jobs (s.pending ++ s.queue ++ s.busy ++ s.donejobs)
  counts : s.idle + s.busy.length + s.exited = wtotal workers
  closedPending : s.submitClosed = true → s.pending = []
  exitedClosed : 1 ≤ s.exited → s.submitClosed = true ∧ s.queue = []
  resClosed : s.resultsClosed = true → s.idle = 0 ∧ s.busy = []

/-
Small-step machine for ProcessAllWithContext (pool.go lines 144-216).
Goroutines and their transcription:
- cancellation: the context transitions to Done at most once (action
  cancel); every later observation of the Done channel sees it ready.
- the submitter (lines 192-200): a select between ctx.Done and sending
  the next job.  When the context is not Done only the send is ready;
  when it is Done both cases are ready and Go picks either, so the
  schedule carries the choice (action produce b, b = take the Done branch
  and return, dropping the unsent jobs; the deferred close of the jobs
  channel runs on every exit path).
- each worker (lines 159-189):
  - outer select: receive a job (action deqJob; when the context is Done
    the receive case can still win the random choice, so deqJob stays
    enabled), take the Done branch and switch to draining the jobs
    channel (action toDrain, needs Done), or observe the channel closed
    and empty and return (action exitLoop);
  - the re-check select with default between dequeue and processing
    (lines 177-179): deterministic, the ready Done case beats default,
    so a Done context drops the held job and the worker returns; else
    processFunc is invoked (action check j on a held job j);
  - the push select (lines 182-186): sending the Result is ready (the
    collector keeps draining), and when the context is Done the Done
    branch can also be picked, dropping the computed Result (action
    push j b, b = take the Done branch);
  - the drain loop (lines 164-166): discard queued jobs until the
    channel is closed and empty (actions drainOne / drainExit).
- the closer (lines 203-206) waits for every worker, then closes the
  results channel (action closeRes).
The collector (lines 209-213) folds the pushed stream, hence the
returned map is `resultsToMap pushed`.  Ghost fields: `dequeued` (jobs
received by workers), `started` (jobs on which processFunc was invoked),
`donejobs` (jobs whose Result was pushed), `dropped` (jobs discarded on
a cancellation path).  A worker that computed a Result holds its job in
`ready`; the Result it pushes is `processFunc` of that job, which is the
value computed at the check step since processFunc is a function.
-/
/-- schedule actions driving the ProcessAllWithContext machine. -/
inductive CtxAct where
  | cancel : CtxAct
  | produce : Bool → CtxAct
  | deqJob : CtxAct
  | toDrain : CtxAct
  | exitLoop : CtxAct
  | check : Job → CtxAct
  | push : Job → Bool → CtxAct
  | drainOne : CtxAct
  | drainExit : CtxAct
  | closeRes : CtxAct
deriving DecidableEq

/-- state of the ProcessAllWithContext machine. -/
structure CtxExec where
  cancelled : Bool
  pending : List Job
  jobsClosed : Bool
  queue : List Job
  idle : Nat
  held : List Job
  ready : List Job
  draining : Nat
  exited : Nat
  pushed : List Result
  dequeued : List Job
  started : List Job
  donejobs : List Job
  dropped : List Job
  resultsClosed : Bool
deriving DecidableEq

/-- initial state of ProcessAllWithContext (worker count clamped as in
the source: `if workers <= 0 then workers = 1`). -/
def initCtx (jobs : List Job) (workers : Nat) : CtxExec :=
  { cancelled := false, pending := jobs, jobsClosed := false, queue := [],
    idle := wtotal workers, held := [], ready := [], draining := 0,
    exited := 0, pushed := [], dequeued := [], started := [],
    donejobs := [], dropped := [], resultsClosed := false }

/-- one transition of the ProcessAllWithContext machine; an action whose
guard does not hold leaves the state unchanged. -/
def ctxStep (processFunc : ProcessFunc) (s : CtxExec) : CtxAct → CtxExec
  | .cancel => { s with cancelled := true }
  | .produce b =>
    if s.jobsClosed = true then s
    else
      match s.pending with
      | [] => { s with jobsClosed := true }
      | job :: rest =>
        if s.cancelled = true ∧ b = true then
          { s with jobsClosed := true, pending := [],
                   dropped := s.dropped ++ (job :: rest) }
        else { s with pending := rest, queue := s.queue ++ [job] }
  | .deqJob =>
    match s.queue with
    | [] => s
    | job :: rest =>
      if s.idle = 0 then s
      else { s with idle := s.idle - 1, queue := rest,
                    held := s.held ++ [job], dequeued := s.dequeued ++ [job] }
  | .toDrain =>
    if s.cancelled = true ∧ s.idle ≠ 0 then
      { s with idle := s.idle - 1, draining := s.draining + 1 }
    else s
  | .exitLoop =>
    if s.idle ≠ 0 ∧ s.queue = [] ∧ s.jobsClosed = true then
      { s with idle := s.idle - 1, exited := s.exited + 1 }
    else s
  | .check job =>
    if job ∈ s.held then
      if s.cancelled = true then
        { s with held := s.held.erase job, exited := s.exited + 1,
                 dropped := s.dropped ++ [job] }
      else
        { s with held := s.held.erase job, ready := s.ready ++ [job],
                 started := s.started ++ [job] }
    else s
  | .push job b =>
    if job ∈ s.ready then
      if s.cancelled = true ∧ b = true then
        { s with ready := s.ready.erase job, exited := s.exited + 1,
                 dropped := s.dropped ++ [job] }
      else
        { s with ready := s.ready.erase job, idle := s.idle + 1,
                 pushed := s.pushed ++ [processFunc job],
                 donejobs := s.donejobs ++ [job] }
    else s
  | .drainOne =>
    match s.queue with
    | [] => s
    | job :: rest =>
      if s.draining = 0 then s
      else { s with queue := rest, dropped := s.dropped ++ [job] }
  | .drainExit =>
    if s.draining ≠ 0 ∧ s.queue = [] ∧ s.jobsClosed = true then
      { s with draining := s.draining - 1, exited := s.exited + 1 }
    else s
  | .closeRes =>
    if s.idle = 0 ∧ s.held = [] ∧ s.ready = [] ∧ s.draining = 0 ∧
        s.resultsClosed = false then
      { s with resultsClosed := true }
    else s

/-- run the ProcessAllWithContext machine on a schedule. -/
def ctxRun (processFunc : ProcessFunc) (jobs : List Job) (workers : Nat)
    (acts : List CtxAct) : CtxExec :=
  acts.foldl (ctxStep processFunc) (initCtx jobs workers)

/-- the map returned by ProcessAllWithContext on the execution described
by the schedule. -/
def ProcessAllWithContext (jobs : List Job) (workers : Nat)
    (processFunc : ProcessFunc) (acts : List CtxAct) : ResultMap :=
  resultsToMap (ctxRun processFunc jobs workers acts).pushed

/-- invariants of the ProcessAllWithContext machine. -/
structure CtxInv (processFunc : ProcessFunc) (jobs : List Job)
    (workers : Nat) (s : CtxExec) : Prop where
  pushedEq : s.pushed = s.donejobs.map processFunc
  conserve : List.Perm jobs
    (s.pending ++ s.queue ++ s.held ++ s.ready ++ s.donejobs ++ s.dropped)
  counts : s.idle + s.held.length + s.ready.length + s.draining + s.exited =
    wtotal workers
  closedPending : s.jobsClosed = true → s.pending = []
  noCancelClean : s.cancelled = false → s.dropped = [] ∧ s.draining = 0
  noCancelExit : s.cancelled = false → 1 ≤ s.exited →
    s.jobsClosed = true ∧ s.queue = []
  deqSplit : s.cancelled = false →
    List.Perm s.dequeued (s.held ++ s.started)
  startSplit : s.cancelled = false →
    List.Perm s.started (s.ready ++ s.donejobs)
  resClosed : s.resultsClosed = true →
    s.idle = 0 ∧ s.held = [] ∧ s.ready = [] ∧ s.draining = 0

/-
State machine for the public Pool lifecycle (NewPool / Start / Submit /
Close, pool.go lines 34-79), used for the shutdown-protocol claims.
Close is guarded by `closeOnce : sync.Once`; its body runs
`close(p.jobs); p.wg.Wait(); close(p.results)` at most once.  sync.Once
serialises concurrent Close calls (latecomers block until the first body
returns and then return without running it), so sequences of atomic
operations cover the concurrent case.  A Go runtime panic is tracked in
`panicked`: sending on a closed channel (Submit after the submission
queue closed) and closing an already-closed channel both panic.
-/
/-- public operations of a Pool. -/
inductive PoolOp where
  | start : PoolOp
  | submit : Job → PoolOp
  | close : PoolOp
deriving DecidableEq

/-- lifecycle state of a Pool; `closeRuns` counts executions of the
close body, `panicked` records a Go runtime panic. -/
structure PoolLife where
  started : Bool
  jobsClosed : Bool
  resultsClosed : Bool
  onceUsed : Bool
  closeRuns : Nat
  panicked : Bool
deriving DecidableEq

/-- the state of a freshly constructed Pool (NewPool). -/
def newPool : PoolLife :=
  { started := false, jobsClosed := false, resultsClosed := false,
    onceUsed := false, closeRuns := 0, panicked := false }

/-- one public operation.  Start spawns the workers.  Submit sends on
the jobs channel: a panic if that channel is already closed.  Close runs
the once-guarded body: close the jobs channel (panic if already closed),
wait for the workers, close the results channel (panic if already
closed); if the guard was already used the call returns immediately. -/
def lifeStep (s : PoolLife) : PoolOp → PoolLife
  | .start => { s with started := true }
  | .submit _ =>
    if s.jobsClosed = true then { s with panicked := true } else s
  | .close =>
    if s.onceUsed = true then s
    else
      if s.jobsClosed = true ∨ s.resultsClosed = true then
        { s with onceUsed := true, panicked := true }
      else
        { s with onceUsed := true, jobsClosed := true,
                 resultsClosed := true, closeRuns := s.closeRuns + 1 }

/-- run a sequence of public operations on a fresh Pool. -/
def lifeRun (ops : List PoolOp) : PoolLife :=
  ops.foldl lifeStep newPool

/-- recognise Submit operations. -/
def PoolOp.isSub : PoolOp → Bool
  | .submit _ => true
  | _ => false

/-- an operation sequence in which no Submit ever follows a Close; every
sequence the runners of pool.go generate has this shape. -/
def okSeq : List PoolOp → Bool
  | [] => true
  | PoolOp.close :: rest =>
    rest.all (fun op => op.isSub = false) && okSeq rest
  | _ :: rest => okSeq rest

/-- invariants of the lifecycle machine reachable from a fresh Pool. -/
structure LifeInv (s : PoolLife) : Prop where
  closedOnce : s.jobsClosed = true ∨ s.resultsClosed = true → s.onceUsed = true
  runsOnce : s.closeRuns = if s.onceUsed = true then 1 else 0
  onceClosed : s.onceUsed = true → s.jobsClosed = true

/-- concrete job with identity "a". -/
def jobA : Job := { filePath := "a", data := 0 }

/-- concrete job with identity "b". -/
def jobB : Job := { filePath := "b", data := 0 }

/-- concrete job with identity "good.md". -/
def jobGood : Job := { filePath := "good.md", data := 0 }

/-- concrete job with identity "bad.md". -/
def jobBad : Job := { filePath := "bad.md", data := 0 }

/-- identity-preserving processFunc. -/
def fnId : ProcessFunc :=
  fun j => { filePath := j.filePath, summary := "done", error := none }

/-- deterministic processFunc mapping every job to result identity "k"
and recording the job identity in the summary. -/
def fnCollapse : ProcessFunc :=
  fun j => { filePath := "k", summary := j.filePath, error := none }

/-- processFunc returning a Result whose identity differs from the
identity of every submitted Job. -/
def fnB : ProcessFunc :=
  fun _ => { filePath := "b", summary := "done", error := none }

/-- processFunc failing on bad.md, succeeding elsewhere (scenario C of
the spec and TestPoolWithErrors). -/
def fnErr : ProcessFunc :=
  fun j =>
    if j.filePath = "bad.md" then
      { filePath := j.filePath, summary := "", error := some "file not found" }
    else
      { filePath := j.filePath, summary := "success", error := none }

/-- ProcessAll schedule: both jobs submitted and taken, the second
worker finishes first. -/
def actsC1 : List PoolAct :=
  [PoolAct.submit, PoolAct.submit, PoolAct.submit, PoolAct.take,
   PoolAct.take, PoolAct.finish jobB, PoolAct.finish jobA, PoolAct.exitW,
   PoolAct.exitW, PoolAct.closeRes]

/-- ProcessAllWithContext schedule: the worker dequeues jobA, the
context is cancelled, the re-check drops the job. -/
def actsC2 : List CtxAct :=
  [CtxAct.produce false, CtxAct.deqJob, CtxAct.cancel, CtxAct.check jobA,
   CtxAct.produce false, CtxAct.closeRes]

/-- ProcessAllWithContext schedule with no cancellation: jobA is
dequeued, processed, pushed, and the run terminates. -/
def actsC2W : List CtxAct :=
  [CtxAct.produce false, CtxAct.deqJob, CtxAct.check jobA,
   CtxAct.push jobA false, CtxAct.produce false, CtxAct.exitLoop,
   CtxAct.closeRes]

/-- ProcessAllWithContext schedule: jobA starts executing, the context
is cancelled, and the push select takes the Done branch, dropping the
computed Result. -/
def actsC3 : List CtxAct :=
  [CtxAct.produce false, CtxAct.deqJob, CtxAct.check jobA, CtxAct.cancel,
   CtxAct.push jobA true, CtxAct.produce false, CtxAct.closeRes]

/-- ProcessAll schedule processing the single job jobA to termination. -/
def actsC5 : List PoolAct :=
  [PoolAct.submit, PoolAct.submit, PoolAct.take, PoolAct.finish jobA,
   PoolAct.exitW, PoolAct.closeRes]

/-- claim C1 exactly as stated: for unique job identities, any
1 ≤ W ≤ N, a deterministic processFunc and no cancellation, every
terminated parallel execution returns a map with the same key set and
the same values as the sequential run. -/
def C1Stated : Prop :=
  ∀ (jobs : List Job) (W : Nat) (processFunc : ProcessFunc)
    (acts : List PoolAct),
    (jobs.map Job.filePath).Nodup → 1 ≤ W → W ≤ jobs.length →
    (poolRun processFunc jobs W acts).resultsClosed = true →
    ∀ k, (k ∈ mapKeys (ProcessAll jobs W processFunc acts) ↔
            k ∈ mapKeys (ProcessSequential jobs processFunc)) ∧
         mapFind (ProcessAll jobs W processFunc acts) k =
           mapFind (ProcessSequential jobs processFunc) k

/-- claim C2 exactly as stated: in every terminated execution of
ProcessAllWithContext, every dequeued job has processFunc invoked on
it, even when cancellation fires after the dequeue. -/
def C2Stated : Prop :=
  ∀ (jobs : List Job) (W : Nat) (processFunc : ProcessFunc)
    (acts : List CtxAct),
    (ctxRun processFunc jobs W acts).resultsClosed = true →
    ∀ j ∈ (ctxRun processFunc jobs W acts).dequeued,
      j ∈ (ctxRun processFunc jobs W acts).started

/-- claim C3 exactly as stated for the parallel cancellation-aware
runner: with unique identities, the returned map has at least as many
entries as jobs started executing, and at most N entries. -/
def C3Stated : Prop :=
  ∀ (jobs : List Job) (W : Nat) (processFunc : ProcessFunc)
    (acts : List CtxAct),
    (jobs.map Job.filePath).Nodup →
    (ctxRun processFunc jobs W acts).resultsClosed = true →
    (ctxRun processFunc jobs W acts).started.length ≤
        (ProcessAllWithContext jobs W processFunc acts).length ∧
      (ProcessAllWithContext jobs W processFunc acts).length ≤ jobs.length

/-- claim C9 exactly as stated: no sequence of public Pool operations
raises a runtime panic. -/
def C9Stated : Prop :=
  ∀ (ops : List PoolOp), (lifeRun ops).panicked = false

theorem resultsToMap_eq_insFold (rs : List Result) :
    resultsToMap rs = insFold [] rs := rfl

theorem insFold_append (m : ResultMap) (rs1 rs2 : List Result) :
    insFold m (rs1 ++ rs2) = insFold (insFold m rs1) rs2 :=
  List.foldl_append _ _ _ _

theorem mapFind_insert_self (m : ResultMap) (k : String) (v : Result) :
    mapFind (mapInsert m k v) k = some v := by
  induction m with
  | nil => simp [mapInsert, mapFind]
  | cons e rest ih =>
    obtain ⟨k', v'⟩ := e
    by_cases h : k' = k
    · subst h; simp [mapInsert, mapFind]
    · simp [mapInsert, mapFind, h, ih]

theorem mapFind_insert_ne (m : ResultMap) (k k' : String) (v : Result)
    (h : k' ≠ k) : mapFind (mapInsert m k v) k' = mapFind m k' := by
  have hk : ¬ k = k' := fun hh => h hh.symm
  induction m with
  | nil => simp [mapInsert, mapFind, hk]
  | cons e rest ih =>
    obtain ⟨k0, v0⟩ := e
    by_cases h0 : k0 = k
    · subst h0
      simp [mapInsert, mapFind, hk]
    · by_cases h1 : k0 = k'
      · subst h1; simp [mapInsert, mapFind, h0]
      · simp [mapInsert, mapFind, h0, h1, ih]

theorem mem_mapKeys_insert (m : ResultMap) (k k' : String) (v : Result) :
    k' ∈ mapKeys (mapInsert m k v) ↔ k' ∈ mapKeys m ∨ k' = k := by
  induction m with
  | nil => simp [mapInsert, mapKeys]
  | cons e rest ih =>
    obtain ⟨k0, v0⟩ := e
    by_cases h0 : k0 = k
    · subst h0; simp [mapInsert, mapKeys]; tauto
    · simp [mapInsert, mapKeys, h0] at ih ⊢
      tauto

theorem length_mapInsert (m : ResultMap) (k : String) (v : Result) :
    (mapInsert m k v).length =
      if k ∈ mapKeys m then m.length else m.length + 1 := by
  induction m with
  | nil => simp [mapInsert, mapKeys]
  | cons e rest ih =>
    obtain ⟨k0, v0⟩ := e
    by_cases h0 : k0 = k
    · subst h0; simp [mapInsert, mapKeys]
    · have hne : ¬ k = k0 := fun hh => h0 hh.symm
      simp only [mapInsert, if_neg h0, List.length_cons, ih, mapKeys,
        List.map_cons, List.mem_cons]
      by_cases hm : k ∈ List.map Prod.fst rest <;>
        simp [hm, hne, mapKeys]

theorem mapFind_eq_none_iff (m : ResultMap) (k : String) :
    mapFind m k = none ↔ k ∉ mapKeys m := by
  induction m with
  | nil => simp [mapFind, mapKeys]
  | cons e rest ih =>
    obtain ⟨k0, v0⟩ := e
    by_cases h0 : k0 = k
    · subst h0; simp [mapFind, mapKeys]
    · simp [mapFind, mapKeys, h0, ih, Ne.symm h0]

theorem mem_mapKeys_insFold (m : ResultMap) (rs : List Result) (k : String) :
    k ∈ mapKeys (insFold m rs) ↔
      k ∈ mapKeys m ∨ k ∈ rs.map Result.filePath := by
  induction rs generalizing m with
  | nil => simp [insFold]
  | cons r rest ih =>
    have : insFold m (r :: rest) = insFold (mapInsert m r.filePath r) rest := rfl
    rw [this, ih]
    simp [mem_mapKeys_insert]
    tauto

theorem length_insFold_le (m : ResultMap) (rs : List Result) :
    (insFold m rs).length ≤ m.length + rs.length := by
  induction rs generalizing m with
  | nil => simp [insFold]
  | cons r rest ih =>
    have h1 : insFold m (r :: rest) = insFold (mapInsert m r.filePath r) rest := rfl
    rw [h1]
    calc (insFold (mapInsert m r.filePath r) rest).length
        ≤ (mapInsert m r.filePath r).length + rest.length := ih _
      _ ≤ (m.length + 1) + rest.length := by
          rw [length_mapInsert]
          split <;> omega
      _ = m.length + (rest.length + 1) := by omega
      _ = m.length + (r :: rest).length := by simp

theorem length_insFold_fresh (m : ResultMap) (rs : List Result)
    (hnd : (rs.map Result.filePath).Nodup)
    (hfr : ∀ r ∈ rs, r.filePath ∉ mapKeys m) :
    (insFold m rs).length = m.length + rs.length := by
  induction rs generalizing m with
  | nil => simp [insFold]
  | cons r rest ih =>
    have h1 : insFold m (r :: rest) = insFold (mapInsert m r.filePath r) rest := rfl
    simp only [List.map_cons, List.nodup_cons] at hnd
    rw [h1, ih (mapInsert m r.filePath r) hnd.2]
    · rw [length_mapInsert]
      have : r.filePath ∉ mapKeys m := hfr r (by simp)
      simp [this]
      omega
    · intro r' hr'
      rw [mem_mapKeys_insert]
      push_neg
      refine ⟨hfr r' (by simp [hr']), ?_⟩
      intro hcontra
      exact hnd.1 (hcontra ▸ (List.mem_map_of_mem Result.filePath hr'))

theorem mapFind_insFold_of_not_mem (m : ResultMap) (rs : List Result)
    (k : String) (h : k ∉ rs.map Result.filePath) :
    mapFind (insFold m rs) k = mapFind m k := by
  induction rs generalizing m with
  | nil => simp [insFold]
  | cons r rest ih =>
    have h1 : insFold m (r :: rest) = insFold (mapInsert m r.filePath r) rest := rfl
    simp only [List.map_cons, List.mem_cons, not_or] at h
    rw [h1, ih _ h.2, mapFind_insert_ne _ _ _ _ h.1]

theorem mapFind_insFold_of_mem (m : ResultMap) (rs : List Result) (r : Result)
    (hnd : (rs.map Result.filePath).Nodup) (hr : r ∈ rs) :
    mapFind (insFold m rs) r.filePath = some r := by
  induction rs generalizing m with
  | nil => cases hr
  | cons r0 rest ih =>
    have h1 : insFold m (r0 :: rest) = insFold (mapInsert m r0.filePath r0) rest := rfl
    simp only [List.map_cons, List.nodup_cons] at hnd
    rw [h1]
    rcases List.mem_cons.mp hr with heq | hmem
    · subst heq
      rw [mapFind_insFold_of_not_mem _ _ _ hnd.1, mapFind_insert_self]
    · exact ih _ hnd.2 hmem

theorem permSubmitMove {α : Type} [DecidableEq α] (j : α) (p q b d : List α) :
    List.Perm ((j :: p) ++ q ++ b ++ d) (p ++ (q ++ [j]) ++ b ++ d) := by
  rw [List.perm_iff_count]
  intro a
  by_cases haj : a = j
  · simp [List.count_append, List.count_cons, haj]
    omega
  · simp [List.count_append, List.count_cons, haj]

theorem permTakeMove {α : Type} [DecidableEq α] (j : α) (p q b d : List α) :
    List.Perm (p ++ (j :: q) ++ b ++ d) (p ++ q ++ (b ++ [j]) ++ d) := by
  rw [List.perm_iff_count]
  intro a
  by_cases haj : a = j
  · simp [List.count_append, List.count_cons, haj]
    omega
  · simp [List.count_append, List.count_cons, haj]

theorem permFinishMove {α : Type} [DecidableEq α] (j : α) (p q b d : List α) :
    List.Perm (p ++ q ++ (j :: b) ++ d) (p ++ q ++ b ++ (d ++ [j])) := by
  rw [List.perm_iff_count]
  intro a
  by_cases haj : a = j
  · simp [List.count_append, List.count_cons, haj]
    omega
  · simp [List.count_append, List.count_cons, haj]

theorem poolInv_init (processFunc : ProcessFunc) (jobs : List Job)
    (workers : Nat) : PoolInv processFunc jobs workers (initPool jobs workers) := by
  constructor <;> simp [initPool]

theorem poolInv_step (processFunc : ProcessFunc) (jobs : List Job)
    (workers : Nat) (s : PoolExec) (a : PoolAct)
    (h : PoolInv processFunc jobs workers s) :
    PoolInv processFunc jobs workers (poolStep processFunc s a) := by
  obtain ⟨hp, hc, hn, hcp, hec, hrc⟩ := h
  cases a with
  | submit =>
    by_cases hs : s.submitClosed = true
    · have hstep : poolStep processFunc s PoolAct.submit = s := by
        simp [poolStep, hs]
      rw [hstep]
      exact ⟨hp, hc, hn, hcp, hec, hrc⟩
    · match hpend : s.pending with
      | [] =>
        have hstep : poolStep processFunc s PoolAct.submit =
            { s with submitClosed := true } := by
          simp [poolStep, hs, hpend]
        rw [hstep]
        refine ⟨hp, hc, hn, fun _ => hpend, ?_, hrc⟩
        intro h1
        exact ⟨rfl, (hec h1).2⟩
      | job :: rest =>
        have hstep : poolStep processFunc s PoolAct.submit =
            { s with pending := rest, queue := s.queue ++ [job] } := by
          simp [poolStep, hs, hpend]
        rw [hstep]
        refine ⟨hp, ?_, hn, ?_, ?_, hrc⟩
        · rw [hpend] at hc
          exact hc.trans (permSubmitMove job rest s.queue s.busy s.donejobs)
        · intro hcl
          exact absurd hcl hs
        · intro h1
          exact absurd (hec h1).1 hs
  | take =>
    match hq : s.queue with
    | [] =>
      have hstep : poolStep processFunc s PoolAct.take = s := by
        simp [poolStep, hq]
      rw [hstep]
      exact ⟨hp, hc, hn, hcp, hec, hrc⟩
    | job :: rest =>
      by_cases hi : s.idle = 0
      · have hstep : poolStep processFunc s PoolAct.take = s := by
          simp [poolStep, hq, hi]
        rw [hstep]
        exact ⟨hp, hc, hn, hcp, hec, hrc⟩
      · have hstep : poolStep processFunc s PoolAct.take =
            { s with idle := s.idle - 1, queue := rest,
                     busy := s.busy ++ [job] } := by
          simp [poolStep, hq, hi]
        rw [hstep]
        refine ⟨hp, ?_, ?_, hcp, ?_, ?_⟩
        · rw [hq] at hc
          exact hc.trans (permTakeMove job s.pending rest s.busy s.donejobs)
        · show s.idle - 1 + (s.busy ++ [job]).length + s.exited = wtotal workers
          simp only [List.length_append, List.length_cons, List.length_nil]
          omega
        · intro h1
          have hqe := (hec h1).2
          rw [hq] at hqe
          exact (List.cons_ne_nil _ _ hqe).elim
        · intro h1
          exact absurd (hrc h1).1 hi
  | finish job =>
    by_cases hb : job ∈ s.busy
    · have hstep : poolStep processFunc s (PoolAct.finish job) =
          { s with busy := s.busy.erase job,
                   pushed := s.pushed ++ [processFunc job],
                   donejobs := s.donejobs ++ [job],
                   idle := s.idle + 1 } := by
        simp [poolStep, hb]
      rw [hstep]
      refine ⟨?_, ?_, ?_, hcp, ?_, ?_⟩
      · show s.pushed ++ [processFunc job] =
          (s.donejobs ++ [job]).map processFunc
        rw [hp, List.map_append]
        rfl
      · have hbe : List.Perm s.busy (job :: s.busy.erase job) :=
          List.perm_cons_erase hb
        have hmid : List.Perm (s.pending ++ s.queue ++ s.busy ++ s.donejobs)
            (s.pending ++ s.queue ++ (job :: s.busy.erase job) ++ s.donejobs) :=
          ((hbe.append_left (s.pending ++ s.queue)).append_right s.donejobs)
        exact (hc.trans hmid).trans
          (permFinishMove job s.pending s.queue (s.busy.erase job) s.donejobs)
      · show s.idle + 1 + (s.busy.erase job).length + s.exited = wtotal workers
        have := List.length_erase_add_one hb
        omega
      · intro h1
        exact (hec h1)
      · intro h1
        have hbe := (hrc h1).2
        rw [hbe] at hb
        exact absurd hb (List.not_mem_nil job)
    · have hstep : poolStep processFunc s (PoolAct.finish job) = s := by
        simp [poolStep, hb]
      rw [hstep]
      exact ⟨hp, hc, hn, hcp, hec, hrc⟩
  | exitW =>
    by_cases hg : s.idle ≠ 0 ∧ s.queue = [] ∧ s.submitClosed = true
    · have hstep : poolStep processFunc s PoolAct.exitW =
          { s with idle := s.idle - 1, exited := s.exited + 1 } := by
        simp [poolStep, hg]
      rw [hstep]
      refine ⟨hp, hc, ?_, hcp, ?_, ?_⟩
      · show s.idle - 1 + s.busy.length + (s.exited + 1) = wtotal workers
        have := hg.1
        omega
      · intro _
        exact ⟨hg.2.2, hg.2.1⟩
      · intro h1
        exact absurd (hrc h1).1 hg.1
    · have hstep : poolStep processFunc s PoolAct.exitW = s := by
        simp only [poolStep, if_neg hg]
      rw [hstep]
      exact ⟨hp, hc, hn, hcp, hec, hrc⟩
  | closeRes =>
    by_cases hg : s.idle = 0 ∧ s.busy = [] ∧ s.resultsClosed = false
    · have hstep : poolStep processFunc s PoolAct.closeRes =
          { s with resultsClosed := true } := by
        simp [poolStep, hg]
      rw [hstep]
      exact ⟨hp, hc, hn, hcp, hec, fun _ => ⟨hg.1, hg.2.1⟩⟩
    · have hstep : poolStep processFunc s PoolAct.closeRes = s := by
        simp only [poolStep, if_neg hg]
      rw [hstep]
      exact ⟨hp, hc, hn, hcp, hec, hrc⟩

theorem poolInv_run (processFunc : ProcessFunc) (jobs : List Job)
    (workers : Nat) (acts : List PoolAct) :
    PoolInv processFunc jobs workers (poolRun processFunc jobs workers acts) := by
  suffices h : ∀ (s : PoolExec), PoolInv processFunc jobs workers s →
      PoolInv processFunc jobs workers (acts.foldl (poolStep processFunc) s) by
    exact h _ (poolInv_init processFunc jobs workers)
  induction acts with
  | nil => intro s hs; simpa using hs
  | cons a rest ih =>
    intro s hs
    exact ih _ (poolInv_step processFunc jobs workers s a hs)

/-- a terminated ProcessAll run has processed exactly the submitted job
list, up to completion order. -/
theorem poolRun_terminated_perm (processFunc : ProcessFunc) (jobs : List Job)
    (workers : Nat) (acts : List PoolAct)
    (hterm : (poolRun processFunc jobs workers acts).resultsClosed = true) :
    List.Perm (poolRun processFunc jobs workers acts).donejobs jobs ∧
      (poolRun processFunc jobs workers acts).pushed =
        (poolRun processFunc jobs workers acts).donejobs.map processFunc := by
  obtain ⟨hp, hc, hn, hcp, hec, hrc⟩ := poolInv_run processFunc jobs workers acts
  set s := poolRun processFunc jobs workers acts with hs
  obtain ⟨hi, hb⟩ := hrc hterm
  have hw : 1 ≤ wtotal workers := by
    unfold wtotal
    split <;> omega
  have hex : 1 ≤ s.exited := by
    rw [hi, hb] at hn
    simp at hn
    omega
  have hqc := hec hex
  have hpend := hcp hqc.1
  rw [hpend, hqc.2, hb] at hc
  simp at hc
  exact ⟨hc.symm, hp⟩

/-- all facts holding in a state whose results channel is closed. -/
theorem poolRun_terminated_facts (processFunc : ProcessFunc) (jobs : List Job)
    (workers : Nat) (acts : List PoolAct)
    (hterm : (poolRun processFunc jobs workers acts).resultsClosed = true) :
    (poolRun processFunc jobs workers acts).idle = 0 ∧
      (poolRun processFunc jobs workers acts).busy = [] ∧
      (poolRun processFunc jobs workers acts).submitClosed = true ∧
      (poolRun processFunc jobs workers acts).queue = [] ∧
      (poolRun processFunc jobs workers acts).pending = [] ∧
      (poolRun processFunc jobs workers acts).exited = wtotal workers := by
  obtain ⟨hp, hc, hn, hcp, hec, hrc⟩ := poolInv_run processFunc jobs workers acts
  set s := poolRun processFunc jobs workers acts with hs
  obtain ⟨hi, hb⟩ := hrc hterm
  have hw : 1 ≤ wtotal workers := by
    unfold wtotal
    split <;> omega
  have hex : 1 ≤ s.exited := by
    rw [hi, hb] at hn
    simp at hn
    omega
  have hqc := hec hex
  have hpend := hcp hqc.1
  refine ⟨hi, hb, hqc.1, hqc.2, hpend, ?_⟩
  rw [hi, hb] at hn
  simpa using hn

/-- a state with the results channel closed is a fixpoint of every action:
the submit queue is closed, no worker is idle or busy, so every goroutine
guard fails. -/
theorem poolStep_stable (processFunc : ProcessFunc) (s : PoolExec) (a : PoolAct)
    (h1 : s.resultsClosed = true) (h2 : s.idle = 0) (h3 : s.busy = [])
    (h4 : s.submitClosed = true) : poolStep processFunc s a = s := by
  cases a with
  | submit => simp [poolStep, h4]
  | take =>
    match hq : s.queue with
    | [] => simp [poolStep, hq]
    | job :: rest => simp [poolStep, hq, h2]
  | finish job => simp [poolStep, h3]
  | exitW => simp [poolStep, h2]
  | closeRes => simp [poolStep, h1]

/-- once the results channel is closed the machine never moves again; in
particular no Result is ever pushed onto the closed results channel. -/
theorem poolRun_stable (processFunc : ProcessFunc) (jobs : List Job)
    (workers : Nat) (acts acts2 : List PoolAct)
    (hterm : (poolRun processFunc jobs workers acts).resultsClosed = true) :
    poolRun processFunc jobs workers (acts ++ acts2) =
      poolRun processFunc jobs workers acts := by
  obtain ⟨hi, hb, hsc, _, _, _⟩ :=
    poolRun_terminated_facts processFunc jobs workers acts hterm
  have hfold : poolRun processFunc jobs workers (acts ++ acts2) =
      acts2.foldl (poolStep processFunc) (poolRun processFunc jobs workers acts) :=
    List.foldl_append _ _ _ _
  rw [hfold]
  induction acts2 with
  | nil => rfl
  | cons a rest ih =>
    rw [List.foldl_cons,
      poolStep_stable processFunc _ a hterm hi hb hsc]
    exact ih (List.foldl_append _ _ _ _)

theorem mapFind_resultsToMap_perm (rs rs' : List Result)
    (hp : List.Perm rs rs') (hnd : (rs.map Result.filePath).Nodup)
    (k : String) :
    mapFind (resultsToMap rs) k = mapFind (resultsToMap rs') k := by
  have hnd' : (rs'.map Result.filePath).Nodup := (hp.map Result.filePath).nodup_iff.mp hnd
  by_cases hk : k ∈ rs.map Result.filePath
  · obtain ⟨r, hrmem, hrk⟩ := List.mem_map.mp hk
    subst hrk
    rw [resultsToMap_eq_insFold, resultsToMap_eq_insFold,
      mapFind_insFold_of_mem _ _ _ hnd hrmem,
      mapFind_insFold_of_mem _ _ _ hnd' (hp.mem_iff.mp hrmem)]
  · have hk' : k ∉ rs'.map Result.filePath := fun hc =>
      hk ((hp.map Result.filePath).mem_iff.mpr hc)
    rw [resultsToMap_eq_insFold, resultsToMap_eq_insFold,
      mapFind_insFold_of_not_mem _ _ _ hk, mapFind_insFold_of_not_mem _ _ _ hk']

theorem permMove2 {α : Type} [DecidableEq α] (j : α) (a b : List α) :
    List.Perm ((j :: a) ++ b) (a ++ (b ++ [j])) := by
  rw [List.perm_iff_count]
  intro x
  by_cases hxj : x = j
  · simp [List.count_append, List.count_cons, hxj]
    omega
  · simp [List.count_append, List.count_cons, hxj]

theorem permMove3 {α : Type} [DecidableEq α] (j : α) (a b : List α) :
    List.Perm ((a ++ b) ++ [j]) ((a ++ [j]) ++ b) := by
  rw [List.perm_iff_count]
  intro x
  by_cases hxj : x = j
  · simp [List.count_append, List.count_cons, hxj]
  · simp [List.count_append, List.count_cons, hxj]

theorem permCtxProduce {α : Type} [DecidableEq α] (j : α) (p q h r dj dr : List α) :
    List.Perm ((j :: p) ++ q ++ h ++ r ++ dj ++ dr)
      (p ++ (q ++ [j]) ++ h ++ r ++ dj ++ dr) := by
  rw [List.perm_iff_count]
  intro x
  by_cases hxj : x = j
  · simp [List.count_append, List.count_cons, hxj]
    omega
  · simp [List.count_append, List.count_cons, hxj]

theorem permCtxProduceExit {α : Type} [DecidableEq α] (p q h r dj dr : List α) :
    List.Perm (p ++ q ++ h ++ r ++ dj ++ dr)
      ([] ++ q ++ h ++ r ++ dj ++ (dr ++ p)) := by
  rw [List.perm_iff_count]
  intro x
  simp [List.count_append]
  omega

theorem permCtxDeq {α : Type} [DecidableEq α] (j : α) (p q h r dj dr : List α) :
    List.Perm (p ++ (j :: q) ++ h ++ r ++ dj ++ dr)
      (p ++ q ++ (h ++ [j]) ++ r ++ dj ++ dr) := by
  rw [List.perm_iff_count]
  intro x
  by_cases hxj : x = j
  · simp [List.count_append, List.count_cons, hxj]
    omega
  · simp [List.count_append, List.count_cons, hxj]

theorem permCtxCheckDrop {α : Type} [DecidableEq α] (j : α) (p q h r dj dr : List α) :
    List.Perm (p ++ q ++ (j :: h) ++ r ++ dj ++ dr)
      (p ++ q ++ h ++ r ++ dj ++ (dr ++ [j])) := by
  rw [List.perm_iff_count]
  intro x
  by_cases hxj : x = j
  · simp [List.count_append, List.count_cons, hxj]
    omega
  · simp [List.count_append, List.count_cons, hxj]

theorem permCtxCheckOk {α : Type} [DecidableEq α] (j : α) (p q h r dj dr : List α) :
    List.Perm (p ++ q ++ (j :: h) ++ r ++ dj ++ dr)
      (p ++ q ++ h ++ (r ++ [j]) ++ dj ++ dr) := by
  rw [List.perm_iff_count]
  intro x
  by_cases hxj : x = j
  · simp [List.count_append, List.count_cons, hxj]
    omega
  · simp [List.count_append, List.count_cons, hxj]

theorem permCtxPushDrop {α : Type} [DecidableEq α] (j : α) (p q h r dj dr : List α) :
    List.Perm (p ++ q ++ h ++ (j :: r) ++ dj ++ dr)
      (p ++ q ++ h ++ r ++ dj ++ (dr ++ [j])) := by
  rw [List.perm_iff_count]
  intro x
  by_cases hxj : x = j
  · simp [List.count_append, List.count_cons, hxj]
    omega
  · simp [List.count_append, List.count_cons, hxj]

theorem permCtxPushOk {α : Type} [DecidableEq α] (j : α) (p q h r dj dr : List α) :
    List.Perm (p ++ q ++ h ++ (j :: r) ++ dj ++ dr)
      (p ++ q ++ h ++ r ++ (dj ++ [j]) ++ dr) := by
  rw [List.perm_iff_count]
  intro x
  by_cases hxj : x = j
  · simp [List.count_append, List.count_cons, hxj]
    omega
  · simp [List.count_append, List.count_cons, hxj]

theorem permCtxDrain {α : Type} [DecidableEq α] (j : α) (p q h r dj dr : List α) :
    List.Perm (p ++ (j :: q) ++ h ++ r ++ dj ++ dr)
      (p ++ q ++ h ++ r ++ dj ++ (dr ++ [j])) := by
  rw [List.perm_iff_count]
  intro x
  by_cases hxj : x = j
  · simp [List.count_append, List.count_cons, hxj]
    omega
  · simp [List.count_append, List.count_cons, hxj]

theorem ctxInv_init (processFunc : ProcessFunc) (jobs : List Job)
    (workers : Nat) : CtxInv processFunc jobs workers (initCtx jobs workers) := by
  constructor <;> simp [initCtx]

theorem ctxInv_step (processFunc : ProcessFunc) (jobs : List Job)
    (workers : Nat) (s : CtxExec) (a : CtxAct)
    (h : CtxInv processFunc jobs workers s) :
    CtxInv processFunc jobs workers (ctxStep processFunc s a) := by
  obtain ⟨hp, hc, hn, hcp, hncc, hnce, hdq, hst, hrc⟩ := h
  cases a with
  | cancel =>
    have hstep : ctxStep processFunc s CtxAct.cancel =
        { s with cancelled := true } := rfl
    rw [hstep]
    refine ⟨hp, hc, hn, hcp, ?_, ?_, ?_, ?_, hrc⟩ <;>
      exact fun hf => absurd hf (by simp)
  | produce b =>
    by_cases hjc : s.jobsClosed = true
    · have hstep : ctxStep processFunc s (CtxAct.produce b) = s := by
        simp [ctxStep, hjc]
      rw [hstep]
      exact ⟨hp, hc, hn, hcp, hncc, hnce, hdq, hst, hrc⟩
    · match hpend : s.pending with
      | [] =>
        have hstep : ctxStep processFunc s (CtxAct.produce b) =
            { s with jobsClosed := true } := by
          simp [ctxStep, hjc, hpend]
        rw [hstep]
        refine ⟨hp, hc, hn, fun _ => hpend, hncc, ?_, hdq, hst, hrc⟩
        intro hcf h1
        exact ⟨rfl, (hnce hcf h1).2⟩
      | job :: rest =>
        by_cases hg : s.cancelled = true ∧ b = true
        · have hstep : ctxStep processFunc s (CtxAct.produce b) =
              { s with jobsClosed := true, pending := [],
                       dropped := s.dropped ++ (job :: rest) } := by
            simp [ctxStep, hjc, hpend, hg.1, hg.2]
          rw [hstep]
          refine ⟨hp, ?_, hn, fun _ => rfl, ?_, ?_, ?_, ?_, hrc⟩
          · rw [hpend] at hc
            exact hc.trans (permCtxProduceExit (job :: rest) s.queue s.held
              s.ready s.donejobs s.dropped)
          · intro hcf
            rw [hcf] at hg
            exact absurd hg.1 (by simp)
          · intro hcf
            rw [hcf] at hg
            exact absurd hg.1 (by simp)
          · intro hcf
            rw [hcf] at hg
            exact absurd hg.1 (by simp)
          · intro hcf
            rw [hcf] at hg
            exact absurd hg.1 (by simp)
        · have hstep : ctxStep processFunc s (CtxAct.produce b) =
              { s with pending := rest, queue := s.queue ++ [job] } := by
            simp [ctxStep, hjc, hpend, hg]
          rw [hstep]
          refine ⟨hp, ?_, hn, ?_, hncc, ?_, hdq, hst, hrc⟩
          · rw [hpend] at hc
            exact hc.trans (permCtxProduce job rest s.queue s.held s.ready
              s.donejobs s.dropped)
          · intro hcl
            exact absurd hcl hjc
          · intro hcf h1
            exact absurd (hnce hcf h1).1 hjc
  | deqJob =>
    match hq : s.queue with
    | [] =>
      have hstep : ctxStep processFunc s CtxAct.deqJob = s := by
        simp [ctxStep, hq]
      rw [hstep]
      exact ⟨hp, hc, hn, hcp, hncc, hnce, hdq, hst, hrc⟩
    | job :: rest =>
      by_cases hi : s.idle = 0
      · have hstep : ctxStep processFunc s CtxAct.deqJob = s := by
          simp [ctxStep, hq, hi]
        rw [hstep]
        exact ⟨hp, hc, hn, hcp, hncc, hnce, hdq, hst, hrc⟩
      · have hstep : ctxStep processFunc s CtxAct.deqJob =
            { s with idle := s.idle - 1, queue := rest,
                     held := s.held ++ [job],
                     dequeued := s.dequeued ++ [job] } := by
          simp [ctxStep, hq, hi]
        rw [hstep]
        refine ⟨hp, ?_, ?_, hcp, hncc, ?_, ?_, hst, ?_⟩
        · rw [hq] at hc
          exact hc.trans (permCtxDeq job s.pending rest s.held s.ready
            s.donejobs s.dropped)
        · show s.idle - 1 + (s.held ++ [job]).length + s.ready.length +
            s.draining + s.exited = wtotal workers
          simp only [List.length_append, List.length_cons, List.length_nil]
          omega
        · intro hcf h1
          have hqe := (hnce hcf h1).2
          rw [hq] at hqe
          exact (List.cons_ne_nil _ _ hqe).elim
        · intro hcf
          exact ((hdq hcf).append_right [job]).trans
            (permMove3 job s.held s.started)
        · intro h1
          exact absurd (hrc h1).1 hi
  | toDrain =>
    by_cases hg : s.cancelled = true ∧ s.idle ≠ 0
    · have hstep : ctxStep processFunc s CtxAct.toDrain =
          { s with idle := s.idle - 1, draining := s.draining + 1 } := by
        simp [ctxStep, hg.1, hg.2]
      rw [hstep]
      refine ⟨hp, hc, ?_, hcp, ?_, ?_, ?_, ?_, ?_⟩
      · show s.idle - 1 + s.held.length + s.ready.length + (s.draining + 1) +
          s.exited = wtotal workers
        have := hg.2
        omega
      · intro hcf
        rw [hcf] at hg
        exact absurd hg.1 (by simp)
      · intro hcf
        rw [hcf] at hg
        exact absurd hg.1 (by simp)
      · intro hcf
        rw [hcf] at hg
        exact absurd hg.1 (by simp)
      · intro hcf
        rw [hcf] at hg
        exact absurd hg.1 (by simp)
      · intro h1
        exact absurd (hrc h1).1 hg.2
    · have hstep : ctxStep processFunc s CtxAct.toDrain = s := by
        simp only [ctxStep, if_neg hg]
      rw [hstep]
      exact ⟨hp, hc, hn, hcp, hncc, hnce, hdq, hst, hrc⟩
  | exitLoop =>
    by_cases hg : s.idle ≠ 0 ∧ s.queue = [] ∧ s.jobsClosed = true
    · have hstep : ctxStep processFunc s CtxAct.exitLoop =
          { s with idle := s.idle - 1, exited := s.exited + 1 } := by
        simp [ctxStep, hg]
      rw [hstep]
      refine ⟨hp, hc, ?_, hcp, hncc, ?_, hdq, hst, ?_⟩
      · show s.idle - 1 + s.held.length + s.ready.length + s.draining +
          (s.exited + 1) = wtotal workers
        have := hg.1
        omega
      · intro _ _
        exact ⟨hg.2.2, hg.2.1⟩
      · intro h1
        exact absurd (hrc h1).1 hg.1
    · have hstep : ctxStep processFunc s CtxAct.exitLoop = s := by
        simp only [ctxStep, if_neg hg]
      rw [hstep]
      exact ⟨hp, hc, hn, hcp, hncc, hnce, hdq, hst, hrc⟩
  | check job =>
    by_cases hb : job ∈ s.held
    · have hbe : List.Perm s.held (job :: s.held.erase job) :=
        List.perm_cons_erase hb
      have hlen := List.length_erase_add_one hb
      by_cases hcan : s.cancelled = true
      · have hstep : ctxStep processFunc s (CtxAct.check job) =
            { s with held := s.held.erase job, exited := s.exited + 1,
                     dropped := s.dropped ++ [job] } := by
          simp [ctxStep, hb, hcan]
        rw [hstep]
        refine ⟨hp, ?_, ?_, hcp, ?_, ?_, ?_, ?_, ?_⟩
        · have hmid : List.Perm
              (s.pending ++ s.queue ++ s.held ++ s.ready ++ s.donejobs ++ s.dropped)
              (s.pending ++ s.queue ++ (job :: s.held.erase job) ++ s.ready ++
                s.donejobs ++ s.dropped) :=
            (((hbe.append_left (s.pending ++ s.queue)).append_right
              s.ready).append_right s.donejobs).append_right s.dropped
          exact (hc.trans hmid).trans (permCtxCheckDrop job s.pending s.queue
            (s.held.erase job) s.ready s.donejobs s.dropped)
        · show s.idle + (s.held.erase job).length + s.ready.length +
            s.draining + (s.exited + 1) = wtotal workers
          omega
        · intro hcf
          rw [hcf] at hcan
          exact absurd hcan (by simp)
        · intro hcf
          rw [hcf] at hcan
          exact absurd hcan (by simp)
        · intro hcf
          rw [hcf] at hcan
          exact absurd hcan (by simp)
        · intro hcf
          rw [hcf] at hcan
          exact absurd hcan (by simp)
        · intro h1
          have := (hrc h1).2.1
          rw [this] at hb
          exact absurd hb (List.not_mem_nil job)
      · have hstep : ctxStep processFunc s (CtxAct.check job) =
            { s with held := s.held.erase job, ready := s.ready ++ [job],
                     started := s.started ++ [job] } := by
          simp [ctxStep, hb, hcan]
        rw [hstep]
        refine ⟨hp, ?_, ?_, hcp, hncc, hnce, ?_, ?_, ?_⟩
        · have hmid : List.Perm
              (s.pending ++ s.queue ++ s.held ++ s.ready ++ s.donejobs ++ s.dropped)
              (s.pending ++ s.queue ++ (job :: s.held.erase job) ++ s.ready ++
                s.donejobs ++ s.dropped) :=
            (((hbe.append_left (s.pending ++ s.queue)).append_right
              s.ready).append_right s.donejobs).append_right s.dropped
          exact (hc.trans hmid).trans (permCtxCheckOk job s.pending s.queue
            (s.held.erase job) s.ready s.donejobs s.dropped)
        · show s.idle + (s.held.erase job).length + (s.ready ++ [job]).length +
            s.draining + s.exited = wtotal workers
          simp only [List.length_append, List.length_cons, List.length_nil]
          omega
        · intro hcf
          exact ((hdq hcf).trans (hbe.append_right s.started)).trans
            (permMove2 job (s.held.erase job) s.started)
        · intro hcf
          exact ((hst hcf).append_right [job]).trans
            (permMove3 job s.ready s.donejobs)
        · intro h1
          have := (hrc h1).2.1
          rw [this] at hb
          exact absurd hb (List.not_mem_nil job)
    · have hstep : ctxStep processFunc s (CtxAct.check job) = s := by
        simp [ctxStep, hb]
      rw [hstep]
      exact ⟨hp, hc, hn, hcp, hncc, hnce, hdq, hst, hrc⟩
  | push job b =>
    by_cases hb : job ∈ s.ready
    · have hbe : List.Perm s.ready (job :: s.ready.erase job) :=
        List.perm_cons_erase hb
      have hlen := List.length_erase_add_one hb
      have hmid : List.Perm
          (s.pending ++ s.queue ++ s.held ++ s.ready ++ s.donejobs ++ s.dropped)
          (s.pending ++ s.queue ++ s.held ++ (job :: s.ready.erase job) ++
            s.donejobs ++ s.dropped) :=
        ((hbe.append_left (s.pending ++ s.queue ++ s.held)).append_right
          s.donejobs).append_right s.dropped
      by_cases hg : s.cancelled = true ∧ b = true
      · have hstep : ctxStep processFunc s (CtxAct.push job b) =
            { s with ready := s.ready.erase job, exited := s.exited + 1,
                     dropped := s.dropped ++ [job] } := by
          simp [ctxStep, hb, hg.1, hg.2]
        rw [hstep]
        refine ⟨hp, ?_, ?_, hcp, ?_, ?_, ?_, ?_, ?_⟩
        · exact (hc.trans hmid).trans (permCtxPushDrop job s.pending s.queue
            s.held (s.ready.erase job) s.donejobs s.dropped)
        · show s.idle + s.held.length + (s.ready.erase job).length +
            s.draining + (s.exited + 1) = wtotal workers
          omega
        · intro hcf
          rw [hcf] at hg
          exact absurd hg.1 (by simp)
        · intro hcf
          rw [hcf] at hg
          exact absurd hg.1 (by simp)
        · intro hcf
          rw [hcf] at hg
          exact absurd hg.1 (by simp)
        · intro hcf
          rw [hcf] at hg
          exact absurd hg.1 (by simp)
        · intro h1
          have := (hrc h1).2.2.1
          rw [this] at hb
          exact absurd hb (List.not_mem_nil job)
      · have hstep : ctxStep processFunc s (CtxAct.push job b) =
            { s with ready := s.ready.erase job, idle := s.idle + 1,
                     pushed := s.pushed ++ [processFunc job],
                     donejobs := s.donejobs ++ [job] } := by
          simp [ctxStep, hb, hg]
        rw [hstep]
        refine ⟨?_, ?_, ?_, hcp, hncc, hnce, hdq, ?_, ?_⟩
        · show s.pushed ++ [processFunc job] =
            (s.donejobs ++ [job]).map processFunc
          rw [hp, List.map_append]
          rfl
        · exact (hc.trans hmid).trans (permCtxPushOk job s.pending s.queue
            s.held (s.ready.erase job) s.donejobs s.dropped)
        · show s.idle + 1 + s.held.length + (s.ready.erase job).length +
            s.draining + s.exited = wtotal workers
          omega
        · intro hcf
          exact ((hst hcf).trans (hbe.append_right s.donejobs)).trans
            (permMove2 job (s.ready.erase job) s.donejobs)
        · intro h1
          have := (hrc h1).2.2.1
          rw [this] at hb
          exact absurd hb (List.not_mem_nil job)
    · have hstep : ctxStep processFunc s (CtxAct.push job b) = s := by
        simp [ctxStep, hb]
      rw [hstep]
      exact ⟨hp, hc, hn, hcp, hncc, hnce, hdq, hst, hrc⟩
  | drainOne =>
    match hq : s.queue with
    | [] =>
      have hstep : ctxStep processFunc s CtxAct.drainOne = s := by
        simp [ctxStep, hq]
      rw [hstep]
      exact ⟨hp, hc, hn, hcp, hncc, hnce, hdq, hst, hrc⟩
    | job :: rest =>
      by_cases hdr : s.draining = 0
      · have hstep : ctxStep processFunc s CtxAct.drainOne = s := by
          simp [ctxStep, hq, hdr]
        rw [hstep]
        exact ⟨hp, hc, hn, hcp, hncc, hnce, hdq, hst, hrc⟩
      · have hstep : ctxStep processFunc s CtxAct.drainOne =
            { s with queue := rest, dropped := s.dropped ++ [job] } := by
          simp [ctxStep, hq, hdr]
        rw [hstep]
        refine ⟨hp, ?_, hn, hcp, ?_, ?_, hdq, hst, ?_⟩
        · rw [hq] at hc
          exact hc.trans (permCtxDrain job s.pending rest s.held s.ready
            s.donejobs s.dropped)
        · intro hcf
          exact absurd (hncc hcf).2 hdr
        · intro hcf h1
          have hqe := (hnce hcf h1).2
          rw [hq] at hqe
          exact (List.cons_ne_nil _ _ hqe).elim
        · intro h1
          exact absurd (hrc h1).2.2.2 hdr
  | drainExit =>
    by_cases hg : s.draining ≠ 0 ∧ s.queue = [] ∧ s.jobsClosed = true
    · have hstep : ctxStep processFunc s CtxAct.drainExit =
          { s with draining := s.draining - 1, exited := s.exited + 1 } := by
        simp [ctxStep, hg]
      rw [hstep]
      refine ⟨hp, hc, ?_, hcp, ?_, ?_, hdq, hst, ?_⟩
      · show s.idle + s.held.length + s.ready.length + (s.draining - 1) +
          (s.exited + 1) = wtotal workers
        have := hg.1
        omega
      · intro hcf
        exact absurd (hncc hcf).2 hg.1
      · intro _ _
        exact ⟨hg.2.2, hg.2.1⟩
      · intro h1
        exact absurd (hrc h1).2.2.2 hg.1
    · have hstep : ctxStep processFunc s CtxAct.drainExit = s := by
        simp only [ctxStep, if_neg hg]
      rw [hstep]
      exact ⟨hp, hc, hn, hcp, hncc, hnce, hdq, hst, hrc⟩
  | closeRes =>
    by_cases hg : s.idle = 0 ∧ s.held = [] ∧ s.ready = [] ∧ s.draining = 0 ∧
        s.resultsClosed = false
    · have hstep : ctxStep processFunc s CtxAct.closeRes =
          { s with resultsClosed := true } := by
        simp [ctxStep, hg]
      rw [hstep]
      exact ⟨hp, hc, hn, hcp, hncc, hnce, hdq, hst,
        fun _ => ⟨hg.1, hg.2.1, hg.2.2.1, hg.2.2.2.1⟩⟩
    · have hstep : ctxStep processFunc s CtxAct.closeRes = s := by
        simp only [ctxStep, if_neg hg]
      rw [hstep]
      exact ⟨hp, hc, hn, hcp, hncc, hnce, hdq, hst, hrc⟩

theorem ctxInv_run (processFunc : ProcessFunc) (jobs : List Job)
    (workers : Nat) (acts : List CtxAct) :
    CtxInv processFunc jobs workers (ctxRun processFunc jobs workers acts) := by
  suffices h : ∀ (s : CtxExec), CtxInv processFunc jobs workers s →
      CtxInv processFunc jobs workers (acts.foldl (ctxStep processFunc) s) by
    exact h _ (ctxInv_init processFunc jobs workers)
  induction acts with
  | nil => intro s hs; simpa using hs
  | cons a rest ih =>
    intro s hs
    exact ih _ (ctxInv_step processFunc jobs workers s a hs)

/-- only the cancel action flips the context to Done. -/
theorem ctxStep_cancelled (processFunc : ProcessFunc) (s : CtxExec)
    (a : CtxAct) (ha : a ≠ CtxAct.cancel) :
    (ctxStep processFunc s a).cancelled = s.cancelled := by
  cases a
  case cancel => exact absurd rfl ha
  all_goals
    simp only [ctxStep]
    repeat' split
    all_goals rfl

/-- a run whose schedule never cancels keeps the context alive. -/
theorem ctxRun_cancelled_false (processFunc : ProcessFunc) (jobs : List Job)
    (workers : Nat) (acts : List CtxAct)
    (hnc : ∀ a ∈ acts, a ≠ CtxAct.cancel) :
    (ctxRun processFunc jobs workers acts).cancelled = false := by
  suffices h : ∀ (s : CtxExec), s.cancelled = false →
      (acts.foldl (ctxStep processFunc) s).cancelled = false by
    exact h _ rfl
  induction acts with
  | nil => intro s hs; simpa using hs
  | cons a rest ih =>
    intro s hs
    refine ih (fun a' ha' => hnc a' (by simp [ha'])) _ ?_
    rw [ctxStep_cancelled processFunc s a (hnc a (by simp))]
    exact hs

/-- a terminated, never-cancelled run of ProcessAllWithContext dequeues,
starts and completes exactly the submitted job list. -/
theorem ctxRun_terminated_noCancel (processFunc : ProcessFunc)
    (jobs : List Job) (workers : Nat) (acts : List CtxAct)
    (hnc : ∀ a ∈ acts, a ≠ CtxAct.cancel)
    (hterm : (ctxRun processFunc jobs workers acts).resultsClosed = true) :
    List.Perm (ctxRun processFunc jobs workers acts).donejobs jobs ∧
      (ctxRun processFunc jobs workers acts).pushed =
        (ctxRun processFunc jobs workers acts).donejobs.map processFunc ∧
      List.Perm (ctxRun processFunc jobs workers acts).dequeued
        (ctxRun processFunc jobs workers acts).started ∧
      List.Perm (ctxRun processFunc jobs workers acts).started
        (ctxRun processFunc jobs workers acts).donejobs := by
  obtain ⟨hp, hc, hn, hcp, hncc, hnce, hdq, hst, hrc⟩ :=
    ctxInv_run processFunc jobs workers acts
  have hcf := ctxRun_cancelled_false processFunc jobs workers acts hnc
  set s := ctxRun processFunc jobs workers acts with hs
  obtain ⟨hi, hh, hr, hd⟩ := hrc hterm
  have hw : 1 ≤ wtotal workers := by
    unfold wtotal
    split <;> omega
  have hex : 1 ≤ s.exited := by
    rw [hi, hh, hr, hd] at hn
    simp at hn
    omega
  obtain ⟨hjc, hq⟩ := hnce hcf hex
  have hpend := hcp hjc
  have hdrop := (hncc hcf).1
  rw [hpend, hq, hh, hr, hdrop] at hc
  simp at hc
  have hdq' := hdq hcf
  rw [hh] at hdq'
  simp at hdq'
  have hst' := hst hcf
  rw [hr] at hst'
  simp at hst'
  exact ⟨hc.symm, hp, hdq', hst'⟩

/-- at most one Result is pushed per job of the list, in every execution
of the ProcessAllWithContext machine. -/
theorem ctxRun_pushed_le (processFunc : ProcessFunc) (jobs : List Job)
    (workers : Nat) (acts : List CtxAct) :
    (ctxRun processFunc jobs workers acts).pushed.length ≤ jobs.length := by
  obtain ⟨hp, hc, _, _, _, _, _, _, _⟩ := ctxInv_run processFunc jobs workers acts
  have hlen := hc.length_eq
  simp only [List.length_append] at hlen
  rw [hp]
  simp only [List.length_map]
  omega

/-- at most one Result is pushed per job, ProcessAll machine. -/
theorem poolRun_pushed_le (processFunc : ProcessFunc) (jobs : List Job)
    (workers : Nat) (acts : List PoolAct) :
    (poolRun processFunc jobs workers acts).pushed.length ≤ jobs.length := by
  obtain ⟨hp, hc, _, _, _, _⟩ := poolInv_run processFunc jobs workers acts
  have hlen := hc.length_eq
  simp only [List.length_append] at hlen
  rw [hp]
  simp only [List.length_map]
  omega

/-- with the never-done context the sequential loop is exactly the fold
of the processed results over the map. -/
theorem processSeqGo_false_eq (processFunc : ProcessFunc) :
    ∀ (jobs : List Job) (i : Nat) (m : ResultMap),
      processSeqGo (fun _ => false) processFunc jobs i m =
        insFold m (jobs.map processFunc)
  | [], _, m => rfl
  | job :: rest, i, m => by
    simp only [processSeqGo, Bool.false_eq_true, if_false, List.map_cons]
    exact processSeqGo_false_eq processFunc rest (i + 1)
      (mapInsert m (processFunc job).filePath (processFunc job))

theorem ProcessSequential_eq_resultsToMap (jobs : List Job)
    (processFunc : ProcessFunc) :
    ProcessSequential jobs processFunc = resultsToMap (jobs.map processFunc) := by
  rw [ProcessSequential, ProcessSequentialWithContext,
    processSeqGo_false_eq, resultsToMap_eq_insFold]

/-- the sequential runner never returns more entries than jobs. -/
theorem processSeqGo_length_le (done : Nat → Bool) (processFunc : ProcessFunc) :
    ∀ (jobs : List Job) (i : Nat) (m : ResultMap),
      (processSeqGo done processFunc jobs i m).length ≤ m.length + jobs.length
  | [], _, m => by simp [processSeqGo]
  | job :: rest, i, m => by
    simp only [processSeqGo]
    split
    · simp
    · have ih := processSeqGo_length_le done processFunc rest (i + 1)
        (mapInsert m (processFunc job).filePath (processFunc job))
      have hins := length_mapInsert m (processFunc job).filePath (processFunc job)
      simp only [List.length_cons]
      split at hins <;> omega

/-- entries are never removed by the sequential loop. -/
theorem processSeqGo_length_ge (done : Nat → Bool) (processFunc : ProcessFunc) :
    ∀ (jobs : List Job) (i : Nat) (m : ResultMap),
      m.length ≤ (processSeqGo done processFunc jobs i m).length
  | [], _, m => by simp [processSeqGo]
  | job :: rest, i, m => by
    simp only [processSeqGo]
    split
    · simp
    · have ih := processSeqGo_length_ge done processFunc rest (i + 1)
        (mapInsert m (processFunc job).filePath (processFunc job))
      have hins := length_mapInsert m (processFunc job).filePath (processFunc job)
      split at hins <;> omega

/-- if the first K checks observe no cancellation, at least the first K
jobs are processed and (for fresh, distinct keys) recorded. -/
theorem processSeqGo_length_lower (done : Nat → Bool) (processFunc : ProcessFunc) :
    ∀ (jobs : List Job) (K i : Nat) (m : ResultMap), K ≤ jobs.length →
      (∀ d, d < K → done (i + d) = false) →
      ((jobs.take K).map (fun j => (processFunc j).filePath)).Nodup →
      (∀ j ∈ jobs.take K, (processFunc j).filePath ∉ mapKeys m) →
      m.length + K ≤ (processSeqGo done processFunc jobs i m).length
  | [], K, i, m, hK, _, _, _ => by
    simp at hK
    simp [processSeqGo, hK]
  | job :: rest, 0, i, m, _, _, _, _ => by
    simpa using processSeqGo_length_ge done processFunc (job :: rest) i m
  | job :: rest, K + 1, i, m, hK, hdone, hnd, hfr => by
    have hd0 : done i = false := by
      have := hdone 0 (by omega)
      simpa using this
    simp only [processSeqGo, hd0, Bool.false_eq_true, if_false]
    rw [List.take_succ_cons] at hnd hfr
    simp only [List.map_cons, List.nodup_cons] at hnd
    have hjob : (processFunc job).filePath ∉ mapKeys m := hfr job (by simp)
    have hins := length_mapInsert m (processFunc job).filePath (processFunc job)
    rw [if_neg hjob] at hins
    have ih := processSeqGo_length_lower done processFunc rest K (i + 1)
      (mapInsert m (processFunc job).filePath (processFunc job))
      (by simpa using hK)
      (fun d hd => by
        have := hdone (d + 1) (by omega)
        rw [show i + 1 + d = i + (d + 1) by omega]
        exact this)
      hnd.2
      (fun j hj => by
        rw [mem_mapKeys_insert]
        push_neg
        refine ⟨hfr j (by simp [hj]), ?_⟩
        intro hcontra
        exact hnd.1 (hcontra ▸ List.mem_map_of_mem
          (fun j => (processFunc j).filePath) hj)
      )
    omega

/-- the per-call trace of an instrumented processFunc under the
sequential runner with the never-done context: calls happen exactly on
the job list, in list order, and the map built agrees with the pure run. -/
theorem processSeqStGo_recorder (processFunc : ProcessFunc) :
    ∀ (jobs : List Job) (i : Nat) (tr : List Job) (m : ResultMap),
      processSeqStGo (fun _ => false)
        (fun tr j => (tr ++ [j], processFunc j)) jobs i tr m =
        (tr ++ jobs, processSeqGo (fun _ => false) processFunc jobs i m)
  | [], _, tr, m => by simp [processSeqStGo, processSeqGo]
  | job :: rest, i, tr, m => by
    simp only [processSeqStGo, processSeqGo, Bool.false_eq_true, if_false]
    rw [processSeqStGo_recorder processFunc rest (i + 1) (tr ++ [job])
      (mapInsert m (processFunc job).filePath (processFunc job))]
    simp

theorem mapKeys_insert_fresh (m : ResultMap) (k : String) (v : Result)
    (h : k ∉ mapKeys m) : mapKeys (mapInsert m k v) = mapKeys m ++ [k] := by
  induction m with
  | nil => simp [mapInsert, mapKeys]
  | cons e rest ih =>
    obtain ⟨k0, v0⟩ := e
    simp only [mapKeys, List.map_cons, List.mem_cons] at h
    push_neg at h
    have h0 : ¬ k0 = k := fun hh => h.1 hh.symm
    simp only [mapInsert, if_neg h0, mapKeys, List.map_cons, List.cons_append]
    have := ih (by simpa [mapKeys] using h.2)
    simpa [mapKeys] using this

/-- folding results with fresh, pairwise distinct keys appends the keys
in stream order. -/
theorem mapKeys_insFold_fresh (m : ResultMap) (rs : List Result)
    (hnd : (rs.map Result.filePath).Nodup)
    (hfr : ∀ r ∈ rs, r.filePath ∉ mapKeys m) :
    mapKeys (insFold m rs) = mapKeys m ++ rs.map Result.filePath := by
  induction rs generalizing m with
  | nil => simp [insFold]
  | cons r rest ih =>
    have h1 : insFold m (r :: rest) = insFold (mapInsert m r.filePath r) rest := rfl
    simp only [List.map_cons, List.nodup_cons] at hnd
    rw [h1, ih (mapInsert m r.filePath r) hnd.2]
    · rw [mapKeys_insert_fresh m r.filePath r (hfr r (by simp))]
      simp
    · intro r' hr'
      rw [mem_mapKeys_insert]
      push_neg
      refine ⟨hfr r' (by simp [hr']), ?_⟩
      intro hcontra
      exact hnd.1 (hcontra ▸ (List.mem_map_of_mem Result.filePath hr'))

theorem lifeInv_init : LifeInv newPool := by
  constructor <;> simp [newPool]

theorem lifeInv_step (s : PoolLife) (op : PoolOp) (h : LifeInv s) :
    LifeInv (lifeStep s op) := by
  obtain ⟨hco, hro, hoc⟩ := h
  cases op with
  | start => exact ⟨hco, hro, hoc⟩
  | submit j =>
    by_cases hj : s.jobsClosed = true
    · have hstep : lifeStep s (PoolOp.submit j) = { s with panicked := true } := by
        simp [lifeStep, hj]
      rw [hstep]
      exact ⟨hco, hro, hoc⟩
    · have hstep : lifeStep s (PoolOp.submit j) = s := by
        simp [lifeStep, hj]
      rw [hstep]
      exact ⟨hco, hro, hoc⟩
  | close =>
    by_cases ho : s.onceUsed = true
    · have hstep : lifeStep s PoolOp.close = s := by
        simp [lifeStep, ho]
      rw [hstep]
      exact ⟨hco, hro, hoc⟩
    · have hnc : ¬ (s.jobsClosed = true ∨ s.resultsClosed = true) :=
        fun hcl => ho (hco hcl)
      have hstep : lifeStep s PoolOp.close =
          { s with onceUsed := true, jobsClosed := true,
                   resultsClosed := true, closeRuns := s.closeRuns + 1 } := by
        simp only [lifeStep, if_neg ho, if_neg hnc]
      rw [hstep]
      refine ⟨fun _ => rfl, ?_, fun _ => rfl⟩
      show s.closeRuns + 1 = if true = true then 1 else 0
      rw [hro, if_neg ho]
      simp

theorem lifeInv_run (ops : List PoolOp) : LifeInv (lifeRun ops) := by
  suffices h : ∀ (s : PoolLife), LifeInv s →
      LifeInv (ops.foldl lifeStep s) by
    exact h _ lifeInv_init
  induction ops with
  | nil => intro s hs; simpa using hs
  | cons op rest ih =>
    intro s hs
    exact ih _ (lifeInv_step s op hs)

theorem lifeStep_onceUsed_close (s : PoolLife) :
    (lifeStep s PoolOp.close).onceUsed = true := by
  by_cases ho : s.onceUsed = true
  · simp [lifeStep, ho]
  · by_cases hnc : s.jobsClosed = true ∨ s.resultsClosed = true
    · simp [lifeStep, ho, hnc]
    · simp [lifeStep, ho, hnc]

theorem lifeStep_onceUsed_other (s : PoolLife) (op : PoolOp)
    (hop : op ≠ PoolOp.close) : (lifeStep s op).onceUsed = s.onceUsed := by
  cases op with
  | start => rfl
  | submit j =>
    by_cases hj : s.jobsClosed = true <;> simp [lifeStep, hj]
  | close => exact absurd rfl hop

/-- the once guard is set exactly when some Close has been executed. -/
theorem lifeRun_onceUsed (ops : List PoolOp) :
    (lifeRun ops).onceUsed = true ↔ PoolOp.close ∈ ops := by
  suffices h : ∀ (s : PoolLife),
      (ops.foldl lifeStep s).onceUsed = true ↔
        s.onceUsed = true ∨ PoolOp.close ∈ ops by
    rw [lifeRun, h newPool]
    simp [newPool]
  induction ops with
  | nil => intro s; simp
  | cons op rest ih =>
    intro s
    rw [List.foldl_cons, ih]
    by_cases hop : op = PoolOp.close
    · subst hop
      simp [lifeStep_onceUsed_close]
    · rw [lifeStep_onceUsed_other s op hop]
      simp [hop]
      tauto

/-- a Close invocation never panics: the guard prevents a double close. -/
theorem lifeStep_close_panic (s : PoolLife) (h : LifeInv s) :
    (lifeStep s PoolOp.close).panicked = s.panicked := by
  obtain ⟨hco, hro, hoc⟩ := h
  by_cases ho : s.onceUsed = true
  · simp [lifeStep, ho]
  · have hnc : ¬ (s.jobsClosed = true ∨ s.resultsClosed = true) :=
      fun hcl => ho (hco hcl)
    simp only [lifeStep, if_neg ho, if_neg hnc]

/-- a second Close is a no-op on the whole state. -/
theorem lifeStep_close_idem (s : PoolLife) (ho : s.onceUsed = true) :
    lifeStep s PoolOp.close = s := by
  simp [lifeStep, ho]

/-- sequences with no Submit after any Close never panic. -/
theorem lifeRun_okSeq_no_panic (ops : List PoolOp) (hok : okSeq ops = true) :
    (lifeRun ops).panicked = false := by
  suffices h : ∀ (s : PoolLife), okSeq ops = true → s.panicked = false →
      LifeInv s →
      (s.jobsClosed = true → ops.all (fun op => op.isSub = false) = true) →
      (ops.foldl lifeStep s).panicked = false by
    exact h newPool hok rfl lifeInv_init (by intro hj; simp [newPool] at hj)
  clear hok
  induction ops with
  | nil => intro s _ hp _ _; simpa using hp
  | cons op rest ih =>
    intro s hok hp hinv hsub
    cases op with
    | start =>
      refine ih _ (by simpa [okSeq] using hok) (by simpa [lifeStep] using hp)
        (lifeInv_step s PoolOp.start hinv) ?_
      intro hj
      have h2 := hsub (by simpa [lifeStep] using hj)
      simp only [List.all_cons, Bool.and_eq_true] at h2
      exact h2.2
    | submit j =>
      have hj : s.jobsClosed = false := by
        by_contra hjc
        have hjc' : s.jobsClosed = true := by
          cases hjb : s.jobsClosed
          · exact absurd hjb hjc
          · rfl
        have := hsub hjc'
        simp [PoolOp.isSub] at this
      have hstep : lifeStep s (PoolOp.submit j) = s := by
        simp [lifeStep, hj]
      rw [List.foldl_cons, hstep]
      refine ih _ (by simpa [okSeq] using hok) hp hinv ?_
      intro hjc
      rw [hj] at hjc
      cases hjc
    | close =>
      simp only [okSeq, Bool.and_eq_true] at hok
      have hpan := lifeStep_close_panic s hinv
      rw [List.foldl_cons]
      refine ih _ hok.2 (by rw [hpan]; exact hp)
        (lifeInv_step s PoolOp.close hinv) ?_
      intro _
      exact hok.1

/-- C1 counterexample: claim C1 as stated is false.  With jobs a, b
(unique identities), W = 2, and the deterministic fnCollapse, the
schedule actsC1 is a terminated execution in which worker 2 finishes
before worker 1, so the parallel map carries the Result of jobA under
key k while the sequential map carries the Result of jobB: the key sets
agree but the values differ. -/
theorem c1_counterexample : ¬ C1Stated := by
  intro h
  have h2 := (h [jobA, jobB] 2 fnCollapse actsC1 (by decide) (by decide)
    (by decide) (by decide) "k").2
  exact absurd h2 (by decide)

/-- C1 amended: with unique job identities, an identity-preserving
processFunc (the data-model contract of the spec), and no cancellation,
every terminated execution of ProcessAll returns a map with the same
key set and the same values as ProcessSequential, for every worker
count. -/
theorem c1_amended (jobs : List Job) (W : Nat) (processFunc : ProcessFunc)
    (acts : List PoolAct)
    (hnd : (jobs.map Job.filePath).Nodup)
    (hpres : ∀ j, (processFunc j).filePath = j.filePath)
    (hterm : (poolRun processFunc jobs W acts).resultsClosed = true) :
    ∀ k, (k ∈ mapKeys (ProcessAll jobs W processFunc acts) ↔
            k ∈ mapKeys (ProcessSequential jobs processFunc)) ∧
         mapFind (ProcessAll jobs W processFunc acts) k =
           mapFind (ProcessSequential jobs processFunc) k := by
  obtain ⟨hperm, hpushed⟩ := poolRun_terminated_perm processFunc jobs W acts hterm
  have hfun : (fun j => (processFunc j).filePath) = Job.filePath :=
    funext hpres
  have hkeysS : ((jobs.map processFunc).map Result.filePath).Nodup := by
    rw [List.map_map]
    show (jobs.map (fun j => (processFunc j).filePath)).Nodup
    rw [hfun]
    exact hnd
  have hpermRs : List.Perm (poolRun processFunc jobs W acts).pushed
      (jobs.map processFunc) := by
    rw [hpushed]
    exact hperm.map processFunc
  have hkeysP : (((poolRun processFunc jobs W acts).pushed).map
      Result.filePath).Nodup :=
    ((hpermRs.map Result.filePath).nodup_iff).mpr hkeysS
  intro k
  constructor
  · rw [ProcessAll, ProcessSequential_eq_resultsToMap,
      resultsToMap_eq_insFold, resultsToMap_eq_insFold,
      mem_mapKeys_insFold, mem_mapKeys_insFold]
    have hmem := (hpermRs.map Result.filePath).mem_iff (a := k)
    simp only [mapKeys, List.map_nil, List.not_mem_nil, false_or]
    exact hmem
  · rw [ProcessAll, ProcessSequential_eq_resultsToMap]
    exact mapFind_resultsToMap_perm _ _ hpermRs hkeysP k

/-- C1 witness: the amended theorem applied at a terminated two-worker
execution with the identity-preserving fnId. -/
theorem c1_amended_witness :
    mapFind (ProcessAll [jobA, jobB] 2 fnId actsC1) "a" =
      mapFind (ProcessSequential [jobA, jobB] fnId) "a" :=
  (c1_amended [jobA, jobB] 2 fnId actsC1 (by decide) (fun _ => rfl)
    (by decide) "a").2

/-- C2 counterexample: claim C2 as stated is false.  On jobs = [jobA],
W = 1, schedule actsC2 is a terminated execution in which the worker
dequeues jobA, cancellation fires after the dequeue, and the re-check
before processing (pool.go lines 177-179) drops the job: jobA is in
`dequeued` but processFunc is never invoked on it. -/
theorem c2_counterexample : ¬ C2Stated := by
  intro h
  have h2 := h [jobA] 1 fnId actsC2 (by decide) jobA (by decide)
  exact absurd h2 (by decide)

/-- C2 amended: a worker re-checks cancellation between dequeuing a job
and invoking processFunc; if cancellation has fired by that check the
dequeued job is dropped without processFunc being invoked (second
conjunct).  Absent cancellation, every dequeued job is processed and its
Result is pushed and collected (first conjunct). -/
theorem c2_amended (jobs : List Job) (W : Nat) (processFunc : ProcessFunc)
    (acts : List CtxAct) :
    ((∀ a ∈ acts, a ≠ CtxAct.cancel) →
      (ctxRun processFunc jobs W acts).resultsClosed = true →
      List.Perm (ctxRun processFunc jobs W acts).dequeued
          (ctxRun processFunc jobs W acts).started ∧
        List.Perm (ctxRun processFunc jobs W acts).pushed
          ((ctxRun processFunc jobs W acts).started.map processFunc)) ∧
    (∀ (s : CtxExec) (j : Job), j ∈ s.held → s.cancelled = true →
      (ctxStep processFunc s (CtxAct.check j)).started = s.started ∧
        (ctxStep processFunc s (CtxAct.check j)).dropped =
          s.dropped ++ [j]) := by
  constructor
  · intro hnc hterm
    obtain ⟨_, hpush, hdq, hst⟩ :=
      ctxRun_terminated_noCancel processFunc jobs W acts hnc hterm
    refine ⟨hdq, ?_⟩
    rw [hpush]
    exact ((hst.map processFunc).symm)
  · intro s j hj hcan
    constructor <;> simp [ctxStep, hj, hcan]

/-- C2 witness: a terminated one-worker run with no cancellation in
which the dequeued job list is a permutation of the started list. -/
theorem c2_witness :
    List.Perm (ctxRun fnId [jobA] 1 actsC2W).dequeued
      (ctxRun fnId [jobA] 1 actsC2W).started :=
  ((c2_amended [jobA] 1 fnId actsC2W).1 (by decide) (by decide)).1

/-- C3 counterexample: claim C3 as stated is false.  On jobs = [jobA],
W = 1, schedule actsC3 is a terminated execution in which jobA starts
executing (K = 1), cancellation fires during execution, and the push
select takes the ready Done branch (pool.go lines 182-186), dropping
the computed Result: the returned map has 0 < K entries. -/
theorem c3_counterexample : ¬ C3Stated := by
  intro h
  have h2 := (h [jobA] 1 fnId actsC3 (by decide) (by decide)).1
  exact absurd h2 (by decide)

/-- C3 amended: the result map of the parallel cancellation-aware
runner always has at most N entries (first conjunct), and the lower
bound holds for the sequential cancellation-aware runner: if the checks
before the first K jobs all observe no cancellation and the first K
result keys are distinct, at least K entries are returned (second
conjunct), and at most N in total (third conjunct).  For the parallel
runner the lower bound fails: a started job may observe cancellation at
its result push and drop its Result. -/
theorem c3_amended (jobs : List Job) (W : Nat) (processFunc : ProcessFunc)
    (acts : List CtxAct) (done : Nat → Bool) (K : Nat) :
    (ProcessAllWithContext jobs W processFunc acts).length ≤ jobs.length ∧
    (K ≤ jobs.length → (∀ d, d < K → done d = false) →
      ((jobs.take K).map (fun j => (processFunc j).filePath)).Nodup →
      K ≤ (ProcessSequentialWithContext done jobs processFunc).length) ∧
    (ProcessSequentialWithContext done jobs processFunc).length ≤
      jobs.length := by
  refine ⟨?_, ?_, ?_⟩
  · have h1 := length_insFold_le [] (ctxRun processFunc jobs W acts).pushed
    have h2 := ctxRun_pushed_le processFunc jobs W acts
    rw [ProcessAllWithContext, resultsToMap_eq_insFold]
    simp only [List.length_nil, Nat.zero_add] at h1
    omega
  · intro hK hdone hnd
    have h := processSeqGo_length_lower done processFunc jobs K 0 [] hK
      (fun d hd => by simpa using hdone d hd) hnd
      (fun j _ => by simp [mapKeys])
    simpa [ProcessSequentialWithContext] using h
  · have h := processSeqGo_length_le done processFunc jobs 0 []
    simpa [ProcessSequentialWithContext] using h

/-- C3 witness: the amended bounds applied at a concrete two-job
sequential run with no cancellation and K = 2, and a concrete parallel
schedule. -/
theorem c3_witness :
    (ProcessAllWithContext [jobA] 1 fnId actsC3).length ≤ 1 ∧
      2 ≤ (ProcessSequentialWithContext (fun _ => false) [jobA, jobB]
        fnId).length :=
  ⟨(c3_amended [jobA] 1 fnId actsC3 (fun _ => false) 0).1,
   (c3_amended [jobA, jobB] 1 fnId [] (fun _ => false) 2).2.1 (by decide)
     (fun _ _ => rfl) (by decide)⟩

/-- C4: Pool shutdown is idempotent.  For every sequence of public
operations: the close body runs at most once; it runs exactly once iff
some Close was invoked; a second Close after a Close is a no-op on the
whole state; and a Close invocation never panics. -/
theorem c4 (ops : List PoolOp) :
    (lifeRun ops).closeRuns ≤ 1 ∧
    ((lifeRun ops).closeRuns = 1 ↔ PoolOp.close ∈ ops) ∧
    lifeRun (ops ++ [PoolOp.close, PoolOp.close]) =
      lifeRun (ops ++ [PoolOp.close]) ∧
    (lifeRun (ops ++ [PoolOp.close])).panicked = (lifeRun ops).panicked := by
  have hinv := lifeInv_run ops
  obtain ⟨hco, hro, hoc⟩ := hinv
  have happ1 : lifeRun (ops ++ [PoolOp.close]) =
      lifeStep (lifeRun ops) PoolOp.close := by
    rw [lifeRun, List.foldl_append]
    rfl
  have happ2 : lifeRun (ops ++ [PoolOp.close, PoolOp.close]) =
      lifeStep (lifeStep (lifeRun ops) PoolOp.close) PoolOp.close := by
    rw [lifeRun, List.foldl_append]
    rfl
  refine ⟨?_, ?_, ?_, ?_⟩
  · rw [hro]
    split <;> omega
  · rw [hro, ← lifeRun_onceUsed ops]
    by_cases ho : (lifeRun ops).onceUsed = true <;> simp [ho]
  · rw [happ1, happ2,
      lifeStep_close_idem _ (lifeStep_onceUsed_close (lifeRun ops))]
  · rw [happ1]
    exact lifeStep_close_panic (lifeRun ops) ⟨hco, hro, hoc⟩

/-- C4 witness: after Start and two Close calls the close body ran
exactly once. -/
theorem c4_witness :
    (lifeRun [PoolOp.start, PoolOp.close, PoolOp.close]).closeRuns = 1 :=
  (c4 [PoolOp.start, PoolOp.close, PoolOp.close]).2.1.mpr (by decide)

/-- C5: in every execution of the ProcessAll machine, the results
channel is closed only after every worker has exited (all clamped W
workers are in the exited state, none idle or busy), and after the
close no further Result is ever pushed. -/
theorem c5 (processFunc : ProcessFunc) (jobs : List Job) (W : Nat)
    (acts : List PoolAct)
    (hterm : (poolRun processFunc jobs W acts).resultsClosed = true) :
    ((poolRun processFunc jobs W acts).exited = wtotal W ∧
      (poolRun processFunc jobs W acts).idle = 0 ∧
      (poolRun processFunc jobs W acts).busy = []) ∧
    ∀ acts2, (poolRun processFunc jobs W (acts ++ acts2)).pushed =
      (poolRun processFunc jobs W acts).pushed := by
  obtain ⟨hi, hb, _, _, _, hex⟩ :=
    poolRun_terminated_facts processFunc jobs W acts hterm
  refine ⟨⟨hex, hi, hb⟩, ?_⟩
  intro acts2
  rw [poolRun_stable processFunc jobs W acts acts2 hterm]

/-- C5 witness: a concrete terminated one-worker run in which the
single worker has exited and a further schedule pushes nothing more. -/
theorem c5_witness :
    (poolRun fnId [jobA] 1 actsC5).exited = wtotal 1 ∧
      (poolRun fnId [jobA] 1
          (actsC5 ++ [PoolAct.take, PoolAct.finish jobA])).pushed =
        (poolRun fnId [jobA] 1 actsC5).pushed :=
  ⟨((c5 fnId [jobA] 1 actsC5 (by decide)).1).1,
   (c5 fnId [jobA] 1 actsC5 (by decide)).2 [PoolAct.take, PoolAct.finish jobA]⟩

/-- C6: every runner returns at most one entry per job; with unique
identities, an identity-preserving processFunc and no cancellation,
every runner returns exactly one entry per job; and a later-completing
Result silently overwrites an earlier one under the same key. -/
theorem c6 (done : Nat → Bool) (jobs : List Job) (W : Nat)
    (processFunc : ProcessFunc) (pacts : List PoolAct)
    (cacts : List CtxAct) (rs : List Result) (r : Result) :
    (ProcessSequentialWithContext done jobs processFunc).length ≤
      jobs.length ∧
    (ProcessAll jobs W processFunc pacts).length ≤ jobs.length ∧
    (ProcessAllWithContext jobs W processFunc cacts).length ≤ jobs.length ∧
    ((jobs.map Job.filePath).Nodup →
      (∀ j, (processFunc j).filePath = j.filePath) →
      (ProcessSequential jobs processFunc).length = jobs.length ∧
      ((poolRun processFunc jobs W pacts).resultsClosed = true →
        (ProcessAll jobs W processFunc pacts).length = jobs.length) ∧
      ((∀ a ∈ cacts, a ≠ CtxAct.cancel) →
        (ctxRun processFunc jobs W cacts).resultsClosed = true →
        (ProcessAllWithContext jobs W processFunc cacts).length =
          jobs.length)) ∧
    mapFind (resultsToMap (rs ++ [r])) r.filePath = some r := by
  refine ⟨?_, ?_, ?_, ?_, ?_⟩
  · have h := processSeqGo_length_le done processFunc jobs 0 []
    simpa [ProcessSequentialWithContext] using h
  · have h1 := length_insFold_le [] (poolRun processFunc jobs W pacts).pushed
    have h2 := poolRun_pushed_le processFunc jobs W pacts
    rw [ProcessAll, resultsToMap_eq_insFold]
    simp only [List.length_nil, Nat.zero_add] at h1
    omega
  · have h1 := length_insFold_le [] (ctxRun processFunc jobs W cacts).pushed
    have h2 := ctxRun_pushed_le processFunc jobs W cacts
    rw [ProcessAllWithContext, resultsToMap_eq_insFold]
    simp only [List.length_nil, Nat.zero_add] at h1
    omega
  · intro hnd hpres
    have hfun : (fun j => (processFunc j).filePath) = Job.filePath :=
      funext hpres
    have hkeysS : ((jobs.map processFunc).map Result.filePath).Nodup := by
      rw [List.map_map]
      show (jobs.map (fun j => (processFunc j).filePath)).Nodup
      rw [hfun]
      exact hnd
    refine ⟨?_, ?_, ?_⟩
    · rw [ProcessSequential_eq_resultsToMap, resultsToMap_eq_insFold,
        length_insFold_fresh [] (jobs.map processFunc) hkeysS
          (fun r _ => by simp [mapKeys])]
      simp
    · intro hterm
      obtain ⟨hperm, hpushed⟩ :=
        poolRun_terminated_perm processFunc jobs W pacts hterm
      have hpermRs : List.Perm (poolRun processFunc jobs W pacts).pushed
          (jobs.map processFunc) := by
        rw [hpushed]
        exact hperm.map processFunc
      have hkeysP : (((poolRun processFunc jobs W pacts).pushed).map
          Result.filePath).Nodup :=
        ((hpermRs.map Result.filePath).nodup_iff).mpr hkeysS
      rw [ProcessAll, resultsToMap_eq_insFold,
        length_insFold_fresh [] _ hkeysP (fun r _ => by simp [mapKeys])]
      have := hpermRs.length_eq
      simp at this ⊢
      omega
    · intro hnc hterm
      obtain ⟨hperm, hpushed, _, _⟩ :=
        ctxRun_terminated_noCancel processFunc jobs W cacts hnc hterm
      have hpermRs : List.Perm (ctxRun processFunc jobs W cacts).pushed
          (jobs.map processFunc) := by
        rw [hpushed]
        exact hperm.map processFunc
      have hkeysP : (((ctxRun processFunc jobs W cacts).pushed).map
          Result.filePath).Nodup :=
        ((hpermRs.map Result.filePath).nodup_iff).mpr hkeysS
      rw [ProcessAllWithContext, resultsToMap_eq_insFold,
        length_insFold_fresh [] _ hkeysP (fun r _ => by simp [mapKeys])]
      have := hpermRs.length_eq
      simp at this ⊢
      omega
  · rw [resultsToMap_eq_insFold, insFold_append]
    show mapFind (mapInsert (insFold [] rs) r.filePath r) r.filePath = some r
    exact mapFind_insert_self _ _ _

/-- C6 witness: the exactness and overwrite parts applied at concrete
inputs: two unique jobs give a two-entry sequential map, and inserting
a second Result under key a overwrites the first. -/
theorem c6_witness :
    (ProcessSequential [jobA, jobB] fnId).length = 2 ∧
      mapFind (resultsToMap ([fnId jobA] ++ [fnErr jobA]))
        (fnErr jobA).filePath = some (fnErr jobA) :=
  ⟨(((c6 (fun _ => false) [jobA, jobB] 2 fnId [] [] [] (fnId jobA)).2.2.2.1
      (by decide) (fun _ => rfl)).1),
   (c6 (fun _ => false) [] 1 fnId [] [] [fnId jobA] (fnErr jobA)).2.2.2.2⟩

/-- C7: the sequential runner invokes processFunc exactly on the job
list, in list order, one call at a time: instrumenting processFunc with
a call recorder yields the job list itself as the trace (first
conjunct), the map built agrees with the pure runner (second conjunct),
and with distinct preserved identities the map assembly order is the
job-list order (third conjunct). -/
theorem c7 (jobs : List Job) (processFunc : ProcessFunc) :
    (processSequentialSt (fun _ => false) jobs
        (fun tr j => (tr ++ [j], processFunc j)) []).1 = jobs ∧
    (processSequentialSt (fun _ => false) jobs
        (fun tr j => (tr ++ [j], processFunc j)) []).2 =
      ProcessSequential jobs processFunc ∧
    ((jobs.map Job.filePath).Nodup →
      (∀ j, (processFunc j).filePath = j.filePath) →
      mapKeys (ProcessSequential jobs processFunc) =
        jobs.map Job.filePath) := by
  have hrec := processSeqStGo_recorder processFunc jobs 0 [] []
  refine ⟨?_, ?_, ?_⟩
  · rw [processSequentialSt, hrec]
    simp
  · rw [processSequentialSt, hrec]
    rfl
  · intro hnd hpres
    have hfun : (fun j => (processFunc j).filePath) = Job.filePath :=
      funext hpres
    have hkeysS : ((jobs.map processFunc).map Result.filePath).Nodup := by
      rw [List.map_map]
      show (jobs.map (fun j => (processFunc j).filePath)).Nodup
      rw [hfun]
      exact hnd
    rw [ProcessSequential_eq_resultsToMap, resultsToMap_eq_insFold,
      mapKeys_insFold_fresh [] (jobs.map processFunc) hkeysS
        (fun r _ => by simp [mapKeys])]
    rw [List.map_map]
    show [] ++ jobs.map (fun j => (processFunc j).filePath) = _
    rw [hfun]
    simp [mapKeys]

/-- C7 witness: the recorder trace on two concrete jobs is the job list
itself, and the map keys follow the job order. -/
theorem c7_witness :
    (processSequentialSt (fun _ => false) [jobA, jobB]
        (fun tr j => (tr ++ [j], fnId j)) []).1 = [jobA, jobB] ∧
      mapKeys (ProcessSequential [jobA, jobB] fnId) =
        List.map Job.filePath [jobA, jobB] :=
  ⟨(c7 [jobA, jobB] fnId).1,
   (c7 [jobA, jobB] fnId).2.2 (by decide) (fun _ => rfl)⟩

/-- C8: a Result with a non-nil error is carried in the returned map
under its own key like any other Result, and processing continues: with
distinct result keys, every job of the list, failing or not, has its own
Result in the map of the sequential runner and of every terminated
parallel run. -/
theorem c8 (jobs : List Job) (processFunc : ProcessFunc) (j : Job)
    (W : Nat) (acts : List PoolAct)
    (hnd : ((jobs.map processFunc).map Result.filePath).Nodup)
    (hj : j ∈ jobs) :
    mapFind (ProcessSequential jobs processFunc) (processFunc j).filePath =
      some (processFunc j) ∧
    ((poolRun processFunc jobs W acts).resultsClosed = true →
      mapFind (ProcessAll jobs W processFunc acts) (processFunc j).filePath =
        some (processFunc j)) := by
  have hseq : mapFind (ProcessSequential jobs processFunc)
      (processFunc j).filePath = some (processFunc j) := by
    rw [ProcessSequential_eq_resultsToMap, resultsToMap_eq_insFold]
    exact mapFind_insFold_of_mem [] (jobs.map processFunc) (processFunc j)
      hnd (List.mem_map_of_mem processFunc hj)
  refine ⟨hseq, ?_⟩
  intro hterm
  obtain ⟨hperm, hpushed⟩ := poolRun_terminated_perm processFunc jobs W acts hterm
  have hpermRs : List.Perm (poolRun processFunc jobs W acts).pushed
      (jobs.map processFunc) := by
    rw [hpushed]
    exact hperm.map processFunc
  have hkeysP : (((poolRun processFunc jobs W acts).pushed).map
      Result.filePath).Nodup :=
    ((hpermRs.map Result.filePath).nodup_iff).mpr hnd
  rw [ProcessAll,
    mapFind_resultsToMap_perm _ _ hpermRs hkeysP,
    ← ProcessSequential_eq_resultsToMap]
  exact hseq

/-- C8 witness: scenario C of the spec.  With one failing and one
succeeding job, the failing Result is in the map under its key with its
error, and the succeeding job still reports its own outcome. -/
theorem c8_witness :
    mapFind (ProcessSequential [jobGood, jobBad] fnErr)
        (fnErr jobBad).filePath = some (fnErr jobBad) ∧
      (fnErr jobBad).error = some "file not found" ∧
      mapFind (ProcessSequential [jobGood, jobBad] fnErr)
        (fnErr jobGood).filePath = some (fnErr jobGood) ∧
      (fnErr jobGood).error = none :=
  ⟨(c8 [jobGood, jobBad] fnErr jobBad 1 [] (by decide) (by decide)).1,
   by decide,
   (c8 [jobGood, jobBad] fnErr jobGood 1 [] (by decide) (by decide)).1,
   by decide⟩

/-- C9 counterexample: claim C9 as stated is false.  Submit has no
guard: after Close has closed the submission queue, the sequence
NewPool, Start, Close, Submit sends on a closed channel, which panics —
the protocol violation is not structurally unreachable. -/
theorem c9_counterexample : ¬ C9Stated := by
  intro h
  have h2 := h [PoolOp.start, PoolOp.close, PoolOp.submit jobA]
  exact absurd h2 (by decide)

/-- C9 amended: for every sequence of public Pool operations in which
no Submit follows a Close — which includes every sequence the runners
of pool.go generate — no runtime panic is raised; in particular
repeated Close never panics.  A Submit after a Close, however, panics
(send on closed channel). -/
theorem c9_amended (ops : List PoolOp) (hok : okSeq ops = true) :
    (lifeRun ops).panicked = false :=
  lifeRun_okSeq_no_panic ops hok

/-- C9 witness: the amended theorem applied at a start-submit-close
sequence. -/
theorem c9_witness :
    (lifeRun [PoolOp.start, PoolOp.submit jobA, PoolOp.close,
      PoolOp.close]).panicked = false :=
  c9_amended [PoolOp.start, PoolOp.submit jobA, PoolOp.close, PoolOp.close]
    (by decide)

/-- every key of a sequential-loop map is a key of the starting map or
the result identity of some job of the list, for every context. -/
theorem mem_mapKeys_processSeqGo (done : Nat → Bool)
    (processFunc : ProcessFunc) :
    ∀ (jobs : List Job) (i : Nat) (m : ResultMap) (k : String),
      k ∈ mapKeys (processSeqGo done processFunc jobs i m) →
      k ∈ mapKeys m ∨ k ∈ jobs.map (fun j => (processFunc j).filePath)
  | [], _, m, k => by
    intro hk
    exact Or.inl hk
  | job :: rest, i, m, k => by
    intro hk
    simp only [processSeqGo] at hk
    split at hk
    · exact Or.inl hk
    · rcases mem_mapKeys_processSeqGo done processFunc rest (i + 1)
        (mapInsert m (processFunc job).filePath (processFunc job)) k hk with
        hm | hrest
      · rcases (mem_mapKeys_insert m (processFunc job).filePath k
          (processFunc job)).mp hm with hm0 | hkj
        · exact Or.inl hm0
        · exact Or.inr (by simp [hkj])
      · exact Or.inr (by simp [hrest])

/-- C10: every runner keys the returned map by the FilePath of the
Result returned by processFunc, not by the FilePath of the submitted
Job: a key is in the map iff it is the result identity of some job, for
the sequential runner and for every terminated parallel run; for the
cancellation-aware runners every key of the returned map is the result
identity of some job (under any schedule and any context), and for a
terminated ProcessAllWithContext run with no cancellation the key set
is exactly the result identities of the jobs. -/
theorem c10 (jobs : List Job) (processFunc : ProcessFunc) (W : Nat)
    (acts : List PoolAct) (cacts : List CtxAct) (done : Nat → Bool)
    (k : String) :
    (k ∈ mapKeys (ProcessSequential jobs processFunc) ↔
      k ∈ jobs.map (fun j => (processFunc j).filePath)) ∧
    ((poolRun processFunc jobs W acts).resultsClosed = true →
      (k ∈ mapKeys (ProcessAll jobs W processFunc acts) ↔
        k ∈ jobs.map (fun j => (processFunc j).filePath))) ∧
    (k ∈ mapKeys (ProcessSequentialWithContext done jobs processFunc) →
      k ∈ jobs.map (fun j => (processFunc j).filePath)) ∧
    (k ∈ mapKeys (ProcessAllWithContext jobs W processFunc cacts) →
      k ∈ jobs.map (fun j => (processFunc j).filePath)) ∧
    ((∀ a ∈ cacts, a ≠ CtxAct.cancel) →
      (ctxRun processFunc jobs W cacts).resultsClosed = true →
      (k ∈ mapKeys (ProcessAllWithContext jobs W processFunc cacts) ↔
        k ∈ jobs.map (fun j => (processFunc j).filePath))) := by
  have hmapmap : (jobs.map processFunc).map Result.filePath =
      jobs.map (fun j => (processFunc j).filePath) := by
    rw [List.map_map]
    rfl
  refine ⟨?_, ?_, ?_, ?_, ?_⟩
  · rw [ProcessSequential_eq_resultsToMap, resultsToMap_eq_insFold,
      mem_mapKeys_insFold, hmapmap]
    simp [mapKeys]
  · intro hterm
    obtain ⟨hperm, hpushed⟩ :=
      poolRun_terminated_perm processFunc jobs W acts hterm
    have hpermRs : List.Perm (poolRun processFunc jobs W acts).pushed
        (jobs.map processFunc) := by
      rw [hpushed]
      exact hperm.map processFunc
    rw [ProcessAll, resultsToMap_eq_insFold, mem_mapKeys_insFold]
    have hmem := ((hpermRs.map Result.filePath).mem_iff (a := k))
    rw [hmapmap] at hmem
    simp only [mapKeys, List.map_nil, List.not_mem_nil, false_or]
    exact hmem
  · intro hk
    rcases mem_mapKeys_processSeqGo done processFunc jobs 0 [] k hk with
      hm | hjobs
    · simp [mapKeys] at hm
    · exact hjobs
  · intro hk
    have hp := (ctxInv_run processFunc jobs W cacts).pushedEq
    have hc := (ctxInv_run processFunc jobs W cacts).conserve
    rw [ProcessAllWithContext, resultsToMap_eq_insFold,
      mem_mapKeys_insFold] at hk
    rcases hk with hm | hpushedmem
    · simp [mapKeys] at hm
    · rw [hp, List.map_map] at hpushedmem
      obtain ⟨j, hjmem, hjk⟩ := List.mem_map.mp hpushedmem
      have hjjobs : j ∈ jobs := hc.mem_iff.mpr (by simp [hjmem])
      exact List.mem_map.mpr ⟨j, hjjobs, hjk⟩
  · intro hnc hterm
    obtain ⟨hperm, hpushed, _, _⟩ :=
      ctxRun_terminated_noCancel processFunc jobs W cacts hnc hterm
    have hpermRs : List.Perm (ctxRun processFunc jobs W cacts).pushed
        (jobs.map processFunc) := by
      rw [hpushed]
      exact hperm.map processFunc
    rw [ProcessAllWithContext, resultsToMap_eq_insFold, mem_mapKeys_insFold]
    have hmem := ((hpermRs.map Result.filePath).mem_iff (a := k))
    rw [hmapmap] at hmem
    simp only [mapKeys, List.map_nil, List.not_mem_nil, false_or]
    exact hmem

/-- C10 witness: with a processFunc whose Result identity is "b" on the
job with identity "a", the entry appears under "b" and "a" is absent,
both in the sequential map and in the map of a terminated
no-cancellation ProcessAllWithContext run. -/
theorem c10_witness :
    "b" ∈ mapKeys (ProcessSequential [jobA] fnB) ∧
      "a" ∉ mapKeys (ProcessSequential [jobA] fnB) ∧
      "b" ∈ mapKeys (ProcessAllWithContext [jobA] 1 fnB actsC2W) ∧
      "a" ∉ mapKeys (ProcessAllWithContext [jobA] 1 fnB actsC2W) :=
  ⟨(c10 [jobA] fnB 1 [] [] (fun _ => false) "b").1.mpr (by decide),
   fun hmem => absurd
     ((c10 [jobA] fnB 1 [] [] (fun _ => false) "a").1.mp hmem) (by decide),
   ((c10 [jobA] fnB 1 [] actsC2W (fun _ => false) "b").2.2.2.2
     (by decide) (by decide)).mpr (by decide),
   fun hmem => absurd
     ((c10 [jobA] fnB 1 [] actsC2W (fun _ => false) "a").2.2.2.1 hmem)
     (by decide)⟩

end Worker

